import Mathlib

/-!
Verification of the mcumgr-client SMP transport core.

This file is a shallow embedding, in Lean 4, of the byte-level codecs and the
upload engine of the mcumgr-client repository (src/nmp_hdr.rs, src/transfer.rs,
src/image.rs).  Machine integers are modelled as `Nat` with explicit `% 2^w`
truncation where the Rust code truncates; fallible Rust code returns
`Option`/`Except`; a Rust panic (an `unwrap` of `None`, or an arithmetic
underflow of a `usize` subtraction, which aborts in a debug build) is modelled
by a dedicated error value, kept distinct from errors the Rust code returns
with `bail!`.  External library functions (the `base64`, `crc16` and CBOR
wire encodings) are modelled by their documented wire formats, which the
repository relies on.
-/

deriving instance DecidableEq for Except

namespace Mcumgr

/- ## CRC-16/XMODEM (crate `crc16`, used by transfer.rs)
Polynomial 0x1021 = 4129, init 0, no reflection, no final xor, MSB first. -/

/-- One shift-and-conditionally-xor round of the CRC-16/XMODEM bit loop. -/
def crcRound (c : Nat) : Nat :=
  if 32768 ≤ c then ((c * 2) ^^^ 4129) % 65536 else (c * 2) % 65536

/-- Iterate `crcRound`. -/
def crcRounds : Nat → Nat → Nat
  | 0, c => c
  | n + 1, c => crcRounds n (crcRound c)

/-- Fold one input byte into the CRC state. -/
def crcByte (c b : Nat) : Nat := crcRounds 8 (c ^^^ ((b % 256) * 256))

/-- CRC-16/XMODEM of a byte list, as `State::<XMODEM>::calculate` computes it. -/
def crc16 (bs : List Nat) : Nat := bs.foldl crcByte 0

/- ## Big-endian 16-bit fields (crate `byteorder`) -/

/-- The two bytes `write_u16::<BigEndian>` emits for the u16 value `n % 65536`. -/
def be16 (n : Nat) : List Nat := [n / 256 % 256, n % 256]

/-- `BigEndian::read_u16` on the first two bytes of a list. -/
def readU16 (l : List Nat) : Nat := l.getD 0 0 * 256 + l.getD 1 0

/- ## Base64, standard alphabet with mandatory canonical padding
(crate `base64`, engine `general_purpose::STANDARD`). -/

/-- The 64 characters of the standard base64 alphabet, as byte values. -/
def b64alpha : List Nat :=
  [65, 66, 67, 68, 69, 70, 71, 72, 73, 74, 75, 76, 77, 78, 79, 80,
   81, 82, 83, 84, 85, 86, 87, 88, 89, 90,
   97, 98, 99, 100, 101, 102, 103, 104, 105, 106, 107, 108, 109, 110,
   111, 112, 113, 114, 115, 116, 117, 118, 119, 120, 121, 122,
   48, 49, 50, 51, 52, 53, 54, 55, 56, 57, 43, 47]

/-- Character for a 6-bit value. -/
def sextetChar (s : Nat) : Nat := b64alpha.getD s 0

/-- Inverse lookup: the 6-bit value of an alphabet character, `none` otherwise
(in particular `none` for the pad character 61, `'='`). -/
def charSextet (c : Nat) : Option Nat := b64alpha.indexOf? c

/-- Standard base64 encoding of a byte list (62/63 = `+`/`/`, `=` padding). -/
def b64encode : List Nat → List Nat
  | [] => []
  | [b1] => [sextetChar (b1 / 4), sextetChar (b1 % 4 * 16), 61, 61]
  | [b1, b2] =>
      [sextetChar (b1 / 4), sextetChar (b1 % 4 * 16 + b2 / 16),
       sextetChar (b2 % 16 * 4), 61]
  | b1 :: b2 :: b3 :: rest =>
      sextetChar (b1 / 4) :: sextetChar (b1 % 4 * 16 + b2 / 16) ::
      sextetChar (b2 % 16 * 4 + b3 / 64) :: sextetChar (b3 % 64) ::
      b64encode rest

/-- Standard base64 decoding with the `STANDARD` engine's config: the length
must be a multiple of four, padding is required and must be canonical, and
nonzero trailing bits are rejected. -/
def b64decode : List Nat → Option (List Nat)
  | [] => some []
  | c1 :: c2 :: c3 :: c4 :: rest =>
    match charSextet c1, charSextet c2 with
    | some s1, some s2 =>
      if c3 = 61 then
        if c4 = 61 ∧ rest = [] ∧ s2 % 16 = 0 then some [s1 * 4 + s2 / 16] else none
      else
        match charSextet c3 with
        | some s3 =>
          if c4 = 61 then
            if rest = [] ∧ s3 % 4 = 0 then
              some [s1 * 4 + s2 / 16, s2 % 16 * 16 + s3 / 4]
            else none
          else
            match charSextet c4 with
            | some s4 =>
              (b64decode rest).map
                (fun t => (s1 * 4 + s2 / 16) :: (s2 % 16 * 16 + s3 / 4) ::
                          (s3 % 4 * 64 + s4) :: t)
            | none => none
        | none => none
    | _, _ => none
  | _ => none

/- ## SMP header codec (src/nmp_hdr.rs) -/

/-- `NmpOp` (nmp_hdr.rs lines 12-17). -/
inductive NmpOp
  | read
  | readRsp
  | write
  | writeRsp
deriving DecidableEq, Repr

/-- The numeric value of an `NmpOp` (its `repr(u8)` discriminant). -/
def NmpOp.toNat : NmpOp → Nat
  | .read => 0
  | .readRsp => 1
  | .write => 2
  | .writeRsp => 3

/-- `num::FromPrimitive::from_u8` for `NmpOp`. -/
def NmpOp.fromNat (n : Nat) : Option NmpOp :=
  if n = 0 then some .read
  else if n = 1 then some .readRsp
  else if n = 2 then some .write
  else if n = 3 then some .writeRsp
  else none

/-- `NmpGroup` (nmp_hdr.rs lines 33-45). -/
inductive NmpGroup
  | defaultGroup
  | image
  | stat
  | config
  | log
  | crash
  | split
  | run
  | fs
  | shell
  | perUser
deriving DecidableEq, Repr

/-- The numeric value of an `NmpGroup` (its `repr(u16)` discriminant). -/
def NmpGroup.toNat : NmpGroup → Nat
  | .defaultGroup => 0
  | .image => 1
  | .stat => 2
  | .config => 3
  | .log => 4
  | .crash => 5
  | .split => 6
  | .run => 7
  | .fs => 8
  | .shell => 9
  | .perUser => 64

/-- `num::FromPrimitive::from_u16` for `NmpGroup`. -/
def NmpGroup.fromNat (n : Nat) : Option NmpGroup :=
  if n = 0 then some .defaultGroup
  else if n = 1 then some .image
  else if n = 2 then some .stat
  else if n = 3 then some .config
  else if n = 4 then some .log
  else if n = 5 then some .crash
  else if n = 6 then some .split
  else if n = 7 then some .run
  else if n = 8 then some .fs
  else if n = 9 then some .shell
  else if n = 64 then some .perUser
  else none

/-- `NmpHdr` (nmp_hdr.rs lines 143-150).  `flags`, `seq`, `id` are u8 values
and `len` a u16 value, modelled as `Nat`. -/
structure NmpHdr where
  op : NmpOp
  flags : Nat
  len : Nat
  group : NmpGroup
  seq : Nat
  id : Nat
deriving DecidableEq, Repr

/-- `NmpHdr::serialize` (nmp_hdr.rs lines 164-173): op, flags, len (u16 BE),
group (u16 BE), seq, id. -/
def NmpHdr.serialize (h : NmpHdr) : List Nat :=
  [h.op.toNat, h.flags, h.len / 256 % 256, h.len % 256,
   h.group.toNat / 256 % 256, h.group.toNat % 256, h.seq, h.id]

/-- The ways `NmpHdr::deserialize` (nmp_hdr.rs lines 175-190) can fail to
produce a header: running out of bytes (a returned `bincode` error), or the
`.unwrap()` of `FromPrimitive::from_u8`/`from_u16` on an unknown `op` or
`group` value, which panics the process. -/
inductive HdrErr
  | eof
  | panicUnknownOp
  | panicUnknownGroup
deriving DecidableEq, Repr

/-- `NmpHdr::deserialize` (nmp_hdr.rs lines 175-190), big-endian field order
op, flags, len, group, seq, id.  The `.unwrap()` calls on unknown `op` or
`group` values are modelled by the two `panic` error values. -/
def NmpHdr.deserialize (bs : List Nat) : Except HdrErr NmpHdr :=
  match bs with
  | b0 :: b1 :: b2 :: b3 :: b4 :: b5 :: b6 :: b7 :: _ =>
    match NmpOp.fromNat b0 with
    | none => .error .panicUnknownOp
    | some op =>
      match NmpGroup.fromNat (b4 * 256 + b5) with
      | none => .error .panicUnknownGroup
      | some g => .ok ⟨op, b1, b2 * 256 + b3, g, b6, b7⟩
  | _ => .error .eof

/- ## Sequence counter (src/transfer.rs lines 56-62)
`next_seq_id` is an `AtomicU8` seeded with a random u8 and bumped with
`fetch_add(1)`, which returns the pre-increment value and wraps at 256. -/

/-- The value of the `next_seq_id` counter before the `i`-th call, starting
from the random seed `s` (a u8 value, i.e. `s < 256`).  `fetch_add` returns
exactly this value on call `i` and stores the wrapped successor. -/
def seqAt (s : Nat) : Nat → Nat
  | 0 => s
  | i + 1 => (seqAt s i + 1) % 256

/- ## Frame codec, encoding direction (src/transfer.rs `encode_request`,
lines 64-118).  The framing applied to `serialized` (header bytes followed by
the CBOR body) is: append CRC-16 big-endian, prepend the 16-bit big-endian
byte count of what follows, base64-encode, and emit lines of at most
`linelength - 4` base64 characters, the first line prefixed with bytes
`06 09`, every further line with `04 14`, each line terminated by `0A`. -/

/-- Structural worker for `chunksOf`: the first argument is a step budget,
always called with at least the list length (each step drops `w ≥ 1`
elements). -/
def chunksOfGo (w : Nat) : Nat → List Nat → List (List Nat)
  | _, [] => []
  | 0, l => [l]
  | fuel + 1, b :: bs =>
    ((b :: bs).take w) :: chunksOfGo w fuel ((b :: bs).drop w)

/-- Split a list into consecutive chunks of `w` elements (the last chunk may
be shorter), as the `while written < totlen` loop of `encode_request` slices
the base64 text.  (A `linelength` below 5 would make the Rust loop spin
forever; all uses here have `w ≥ 12`.) -/
def chunksOf (w : Nat) (l : List Nat) : List (List Nat) := chunksOfGo w l.length l

/-- Render the continuation lines: marker bytes `04 14`, the chunk, `0A`. -/
def renderCont : List (List Nat) → List Nat
  | [] => []
  | c :: cs => 4 :: 20 :: (c ++ 10 :: renderCont cs)

/-- Render all lines: the first line gets start marker `06 09`, the rest the
continuation marker. -/
def renderLines : List (List Nat) → List Nat
  | [] => []
  | c :: cs => 6 :: 9 :: (c ++ 10 :: renderCont cs)

/-- The framing portion of `encode_request` (transfer.rs lines 81-115)
applied to an opaque payload (the concatenation of the serialized header and
the body): CRC-16 appended, big-endian u16 length of payload+CRC prepended
(truncated to u16 as `serialized.len() as u16` is), base64, line splitting
with a budget of `linelength - 4` characters per line. -/
def wrapFrame (linelength : Nat) (payload : List Nat) : List Nat :=
  let withCrc := payload ++ be16 (crc16 payload)
  let framed := be16 withCrc.length ++ withCrc
  renderLines (chunksOf (linelength - 4) (b64encode framed))

/-- Full `encode_request`: build the request header with `len = |body|` as
u16 and the given sequence number, serialize it, prepend to the body, and
wrap.  Returns the wire bytes (the returned header copy is
`{hdr with len := body.length % 65536, seq := seq}`). -/
def encodeRequest (linelength : Nat) (op : NmpOp) (group : NmpGroup)
    (id seq : Nat) (body : List Nat) : List Nat :=
  let hdr : NmpHdr := ⟨op, 0, body.length % 65536, group, seq, id⟩
  wrapFrame linelength (hdr.serialize ++ body)

/- ## Frame codec, decoding direction (src/transfer.rs `transceive`,
lines 134-190). -/

/-- Errors of the receive loop.  `timeout` models a failed `read_byte` (the
stream ran out); `badMarker` the `bail!` of `expect_byte`; `base64` a decode
failure; `wrongChunkLength` and `wrongChecksum` the two final `bail!`s;
`panic` an out-of-range `BigEndian::read_u16`, a `usize` subtraction
underflow, or an out-of-range slice, all of which abort a debug build rather
than return an error. -/
inductive RxErr
  | timeout
  | badMarker
  | base64
  | wrongChunkLength
  | wrongChecksum
  | panic
  | fuel
deriving DecidableEq, Repr

/-- Read bytes up to and excluding the next `0A`, returning the content and
the remaining stream; `none` when the stream ends first (transfer.rs lines
148-156). -/
def readUntilLF : List Nat → Option (List Nat × List Nat)
  | [] => none
  | b :: rest =>
    if b = 10 then some ([], rest)
    else
      match readUntilLF rest with
      | some (c, r) => some (b :: c, r)
      | none => none

/-- The `loop` of `transceive` (transfer.rs lines 137-172): expect the start
marker `06 09` while no content byte has been read, `04 14` afterwards; read
a line; base64-decode everything accumulated so far; on the accumulation that
first yields a nonzero leading u16, record it as the expected length; stop
when the decoded byte count minus 2 reaches it.  Returns the accumulated
base64 text and the unconsumed stream.  `fuel` bounds the number of loop
iterations; each iteration consumes at least three stream bytes, so any fuel
of at least the stream length is enough. -/
def rxLoop : Nat → List Nat → Nat → Nat → List Nat →
    Except RxErr (List Nat × List Nat)
  | 0, _, _, _, _ => .error .fuel
  | fuel + 1, s, bytesRead, expectedLen, result =>
    let m1 : Nat := if bytesRead = 0 then 6 else 4
    let m2 : Nat := if bytesRead = 0 then 9 else 20
    match s with
    | [] => .error .timeout
    | b1 :: s1 =>
      if b1 ≠ m1 then .error .badMarker
      else
        match s1 with
        | [] => .error .timeout
        | b2 :: s2 =>
          if b2 ≠ m2 then .error .badMarker
          else
            match readUntilLF s2 with
            | none => .error .timeout
            | some (content, s3) =>
              let result' := result ++ content
              match b64decode result' with
              | none => .error .base64
              | some decoded =>
                if decoded.length < 2 then .error .panic
                else
                  let expectedLen' :=
                    if expectedLen = 0 then
                      let l := readU16 decoded
                      if 0 < l then l else expectedLen
                    else expectedLen
                  if expectedLen' ≤ decoded.length - 2 then .ok (result', s3)
                  else rxLoop fuel s3 (bytesRead + content.length)
                         expectedLen' result'

/-- The full unwrap path of `transceive` after the write (transfer.rs lines
134-190): run the receive loop, decode the accumulated base64, check the
length prefix, check the CRC, and return the payload bytes between the
length prefix and the trailing CRC.  (Header parsing and CBOR decoding of
the payload, lines 192-200, are modelled separately.) -/
def transceiveUnwrap (stream : List Nat) : Except RxErr (List Nat) :=
  match rxLoop stream.length stream 0 0 [] with
  | .error e => .error e
  | .ok (result, _) =>
    match b64decode result with
    | none => .error .base64
    | some decoded =>
      if decoded.length < 2 then .error .panic
      else if readU16 decoded ≠ decoded.length - 2 then .error .wrongChunkLength
      else if decoded.length < 4 then .error .panic
      else
        let data := (decoded.drop 2).take (decoded.length - 4)
        let readChecksum := readU16 (decoded.drop (decoded.length - 2))
        if readChecksum ≠ crc16 data then .error .wrongChecksum
        else .ok data

/-- Structural worker for `splitLinesLF`; the budget is always called with
at least the list length (each line consumes at least its `0A` byte). -/
def splitLinesGo : Nat → List Nat → List (List Nat)
  | _, [] => []
  | 0, l => [l]
  | fuel + 1, b :: bs =>
    match readUntilLF (b :: bs) with
    | some (c, r) => (c ++ [10]) :: splitLinesGo fuel r
    | none => [b :: bs]

/-- Split a byte list into lines, each line keeping its terminating `0A`
byte (a final unterminated line is kept as is).  This is the notion of
"emitted line" used to state the line-shape part of the frame-codec claim. -/
def splitLinesLF (l : List Nat) : List (List Nat) := splitLinesGo l.length l

/- ## CBOR values (crate `serde_cbor`) as the response scanners see them -/

/-- The fragment of `serde_cbor::Value` the core inspects: integers are i128
(`Int` here), maps are ordered association lists. -/
inductive CborVal
  | int (i : Int)
  | text (s : String)
  | bytes (bs : List Nat)
  | bool (b : Bool)
  | array (vs : List CborVal)
  | map (entries : List (CborVal × CborVal))
  | null

/-- Rust `as u32` on an i128: two's-complement truncation to the low 32
bits. -/
def intToU32 (i : Int) : Nat := (i % 4294967296).toNat

/-- Rust `as usize` on an i128 (64-bit target): truncation to the low 64
bits. -/
def intToUsize (i : Int) : Nat := (i % 18446744073709551616).toNat

/-- The iteration inside `get_rc` (image.rs lines 23-33): walk the map
entries in order; every entry whose key is the text `"rc"` and whose value is
an integer overwrites the result with the value cast `as u32`. -/
def getRcLoop (rc : Option Nat) : List (CborVal × CborVal) → Option Nat
  | [] => rc
  | (k, v) :: rest =>
    let rcNext :=
      match k with
      | .text s =>
        if s = "rc" then
          match v with
          | .int i => some (intToU32 i)
          | _ => rc
        else rc
      | _ => rc
    getRcLoop rcNext rest

/-- `get_rc` (image.rs lines 21-36). -/
def get_rc : CborVal → Option Nat
  | .map entries => getRcLoop none entries
  | _ => none

/-- The rc validation performed by `erase` and `test` (image.rs lines 83-87
and 119-123): fail with the u32 returned by `get_rc` when it is nonzero. -/
def checkRcDevice (body : CborVal) : Except Nat Unit :=
  match get_rc body with
  | some rc => if rc ≠ 0 then .error rc else .ok ()
  | none => .ok ()

/-- The response-map scan of `upload` (image.rs lines 279-297): walk the
entries in order; a text key `"rc"` with a nonzero integer value fails the
transaction with that integer verbatim; a text key `"off"` with an integer
value replaces the current offset with the value cast `as usize`. -/
def uploadScan (off : Nat) : List (CborVal × CborVal) → Except Int Nat
  | [] => .ok off
  | (k, v) :: rest =>
    match k with
    | .text s =>
      if s = "rc" then
        match v with
        | .int i => if i ≠ 0 then .error i else uploadScan off rest
        | _ => uploadScan off rest
      else if s = "off" then
        match v with
        | .int i => uploadScan (intToUsize i) rest
        | _ => uploadScan off rest
      else uploadScan off rest
    | _ => uploadScan off rest

/-- `upload`'s whole response-body handling: a non-map body is ignored (the
offset is left unchanged, image.rs line 279). -/
def uploadRespScan (off : Nat) : CborVal → Except Int Nat
  | .map entries => uploadScan off entries
  | _ => .ok off

/- ## CBOR wire encoding of `ImageUploadReq` (crate `serde_cbor`,
struct declared in nmp_hdr.rs lines 253-272).  `serde_cbor::to_vec` writes a
definite-length map whose entries appear in field declaration order —
`data`, `image`, `len`, `off`, `sha`, `upgrade` — with the
`skip_serializing_if` fields omitted entirely when `None`, and integers in
canonical shortest form. -/

/-- CBOR head byte(s): major type and canonical shortest argument
encoding. -/
def cborHead (major v : Nat) : List Nat :=
  if v < 24 then [major * 32 + v]
  else if v < 256 then [major * 32 + 24, v]
  else if v < 65536 then [major * 32 + 25, v / 256, v % 256]
  else if v < 4294967296 then
    [major * 32 + 26, v / 16777216 % 256, v / 65536 % 256, v / 256 % 256,
     v % 256]
  else
    [major * 32 + 27, v / 72057594037927936 % 256, v / 281474976710656 % 256,
     v / 1099511627776 % 256, v / 4294967296 % 256, v / 16777216 % 256,
     v / 65536 % 256, v / 256 % 256, v % 256]

/-- `ImageUploadReq` (nmp_hdr.rs lines 253-272): `data` is the chunk bytes,
`image_num` the slot (u8), `len` the optional total image size (u32), `off`
the offset (u32), `data_sha` the optional SHA-256 of the whole image,
`upgrade` an optional flag (never set by this client). -/
structure ImageUploadReq where
  data : List Nat
  image_num : Nat
  len : Option Nat
  off : Nat
  data_sha : Option (List Nat)
  upgrade : Option Bool
deriving Repr, DecidableEq

/-- The serialized map entries of an `ImageUploadReq` in field order, as
pairs of the key's UTF-8 bytes and the value's CBOR bytes.  `len` is present
exactly when the `len` field is `Some`, `sha` exactly when `data_sha` is
`Some`, `upgrade` exactly when `upgrade` is `Some`; absent fields contribute
no key at all. -/
def uploadReqEntries (r : ImageUploadReq) : List (List Nat × List Nat) :=
  [([100, 97, 116, 97], cborHead 2 r.data.length ++ r.data),
   ([105, 109, 97, 103, 101], cborHead 0 r.image_num)] ++
  (match r.len with
   | some v => [([108, 101, 110], cborHead 0 v)]
   | none => []) ++
  [([111, 102, 102], cborHead 0 r.off)] ++
  (match r.data_sha with
   | some s => [([115, 104, 97], cborHead 2 s.length ++ s)]
   | none => []) ++
  (match r.upgrade with
   | some b => [([117, 112, 103, 114, 97, 100, 101], [if b then 245 else 244])]
   | none => [])

/-- The key list of the serialized map. -/
def uploadReqKeys (r : ImageUploadReq) : List (List Nat) :=
  (uploadReqEntries r).map Prod.fst

/-- `serde_cbor::to_vec` of an `ImageUploadReq`: definite-length map head,
then each entry as a definite-length text key followed by its value. -/
def serializeUploadReq (r : ImageUploadReq) : List Nat :=
  cborHead 5 (uploadReqEntries r).length ++
  ((uploadReqEntries r).map (fun e => cborHead 3 e.1.length ++ e.1 ++ e.2)).flatten

/- ## The upload engine (image.rs `upload`, lines 158-333).
The serial port, the CBOR decode of responses and `check_answer` are folded
into a device model `dev : Nat → Nat → Nat → DevResp` giving the outcome of
the transceive for the `sent`-th request (0-based) carrying offset `off` and
a chunk of `chunkLen` bytes.  SHA-256 (crate `sha2`) is an external hash
whose 32-byte digest of the whole file is passed in as `hashD`. -/

/-- Outcome of one transceive as the upload loop distinguishes them
(image.rs lines 257-272): a read timeout (retryable), a response rejected by
`check_answer`, or a decoded CBOR response body. -/
inductive DevResp
  | timeout
  | badAnswer
  | body (v : CborVal)

/-- The two read-timeout settings the engine uses: the initial timeout
(seconds, set when the port is opened, transfer.rs lines 45-54) and the
subsequent timeout (milliseconds, set by image.rs line 318). -/
inductive TimeoutSetting
  | initialTimeout
  | subsequentTimeout
deriving DecidableEq, Repr

/-- How an upload run can end short of success.  `panic` stands for an
arithmetic underflow on a `usize` or an out-of-bounds slice (an abort, not a
returned error); the others are the `bail!`/`return Err` exits of image.rs:
`mtuTooSmall` (line 245), `timeoutGiveUp` (line 261), `wrongAnswer` (line
271), `deviceRc` (line 285), `wrongOffset` (line 304).  `fuelOut` marks
exhaustion of the step budget of this embedding, not a program outcome. -/
inductive UploadErr
  | mtuTooSmall
  | panic
  | timeoutGiveUp
  | wrongAnswer
  | deviceRc (i : Int)
  | wrongOffset
  | fuelOut
deriving DecidableEq, Repr

/-- Mutable state of the upload loop: current offset, sent and confirmed
block counters (image.rs lines 189-192), the read-timeout setting currently
in effect on the port, and the trace of the timeout setting in effect at
each transceive call (one entry per send, in order). -/
structure UploadSt where
  off : Nat
  sent : Nat
  confirmed : Nat
  timeout : TimeoutSetting
  trace : List TimeoutSetting
deriving DecidableEq, Repr

/-- The serial parameters the upload engine reads (transfer.rs lines 21-29;
the timeouts are modelled by `TimeoutSetting`, the device name and baud rate
do not enter the engine's logic). -/
structure SerialSpecs where
  linelength : Nat
  mtu : Nat
  nbRetry : Nat
deriving DecidableEq, Repr

/-- One frame build of the fit loop (image.rs lines 200-239): slice the
chunk `data[off..off + t]`, build the `ImageUploadReq` — with `len` and
`sha` exactly when `off == 0` (lines 209-227) — serialize it to CBOR, and
wrap it with `encode_request` (op Write, group Image, id Upload = 1). -/
def buildUploadReq (D hashD : List Nat) (slot off t : Nat) : ImageUploadReq :=
  let chunk := (D.drop off).take t
  if off = 0 then
    { data := chunk, image_num := slot, len := some (D.length % 4294967296),
      off := off % 4294967296, data_sha := some hashD, upgrade := none }
  else
    { data := chunk, image_num := slot, len := none,
      off := off % 4294967296, data_sha := none, upgrade := none }

/-- The framed wire bytes for one chunk attempt. -/
def uploadFrame (linelength : Nat) (D hashD : List Nat)
    (slot seq off t : Nat) : List Nat :=
  encodeRequest linelength .write .image 1 seq
    (serializeUploadReq (buildUploadReq D hashD slot off t))

/-- Result of the MTU fit loop. -/
inductive FitRes
  | fits (t : Nat) (frame : List Nat)
  | mtuTooSmall
  | panicUnderflow
deriving DecidableEq, Repr

/-- Structural worker for the build-and-reduce cycle: the step budget is
always called strictly above `t` (each retry shrinks `t` by at least 3). -/
def fitGoAux (ll mtu : Nat) (D hashD : List Nat) (slot seq off : Nat) :
    Nat → Nat → FitRes
  | 0, _ => .panicUnderflow
  | fuel + 1, t =>
    let frame := uploadFrame ll D hashD slot seq off t
    if mtu < frame.length then
      if t < frame.length - mtu then .mtuTooSmall
      else if t < (frame.length - mtu) * 3 / 4 + 3 then .panicUnderflow
      else fitGoAux ll mtu D hashD slot seq off fuel
        (t - ((frame.length - mtu) * 3 / 4 + 3))
    else .fits t frame

/-- The build-and-reduce cycle of the fit loop (image.rs lines 241-253),
entered with a chunk length `t` already clamped so that `off + t ≤ |D|`
(re-running the clamp of lines 204-206 on later passes is a no-op since `t`
only shrinks).  If the frame length exceeds the MTU by `reduce`:
`reduce > t` is the *MTU too small* failure; otherwise `try_length -=
reduce * 3 / 4 + 3` is retried, a `usize` subtraction that underflows —
aborting the process — whenever `t < reduce * 3 / 4 + 3`. -/
def fitGo (ll mtu : Nat) (D hashD : List Nat) (slot seq off : Nat)
    (t : Nat) : FitRes :=
  fitGoAux ll mtu D hashD slot seq off (t + 1) t

/-- The fit loop from the top (image.rs lines 196-253): `try_length` starts
at the configured MTU; the clamp `try_length = data.len() - off` (lines
204-206) underflows — a panic — when `off` exceeds the file length. -/
def fitLoop (ll mtu : Nat) (D hashD : List Nat) (slot seq off : Nat)
    (tryLength : Nat) : FitRes :=
  if D.length < off + tryLength then
    if D.length < off then .panicUnderflow
    else fitGo ll mtu D hashD slot seq off (D.length - off)
  else fitGo ll mtu D hashD slot seq off tryLength

/-- The send-and-retry cycle for one fitted chunk (image.rs lines 255-299):
count the send, record the timeout setting in effect, consult the device;
a timeout is retried up to `nbRetry` times (re-building the identical frame),
`check_answer` failure is fatal, and an accepted response body is scanned
for `rc` and `off`. -/
def sendLoop (dev : Nat → Nat → Nat → DevResp) (off t : Nat) :
    UploadSt → Nat → Except (UploadErr × UploadSt) UploadSt
  | st, 0 =>
    let st1 : UploadSt :=
      { st with sent := st.sent + 1, trace := st.trace ++ [st.timeout] }
    match dev st.sent off t with
    | .timeout => .error (.timeoutGiveUp, st1)
    | .badAnswer => .error (.wrongAnswer, st1)
    | .body v =>
      match uploadRespScan st1.off v with
      | .error i => .error (.deviceRc i, st1)
      | .ok newOff =>
        .ok { st1 with off := newOff, confirmed := st1.confirmed + 1 }
  | st, r + 1 =>
    let st1 : UploadSt :=
      { st with sent := st.sent + 1, trace := st.trace ++ [st.timeout] }
    match dev st.sent off t with
    | .timeout => sendLoop dev off t st1 r
    | .badAnswer => .error (.wrongAnswer, st1)
    | .body v =>
      match uploadRespScan st1.off v with
      | .error i => .error (.deviceRc i, st1)
      | .ok newOff =>
        .ok { st1 with off := newOff, confirmed := st1.confirmed + 1 }

/-- The outer chunk loop of `upload` (image.rs lines 193-319).  Each
iteration: fit a chunk starting from `try_length = mtu`, send it with
retries, fail *wrong offset received* when the device-reported offset equals
the offset the iteration started with (line 303), stop when the offset
reaches the file length (line 312), and only otherwise lower the read
timeout to the subsequent setting (line 318).  `seqs n` supplies the
sequence id of the `n`-th chunk (`next_seq_id` is a random-seeded global
counter).  `fuel` bounds the number of iterations of this embedding. -/
def uploadLoop (dev : Nat → Nat → Nat → DevResp) (specs : SerialSpecs)
    (D hashD : List Nat) (slot : Nat) (seqs : Nat → Nat) :
    Nat → UploadSt → Except (UploadErr × UploadSt) UploadSt
  | 0, st => .error (.fuelOut, st)
  | fuel + 1, st =>
    let offStart := st.off
    match fitLoop specs.linelength specs.mtu D hashD slot (seqs st.confirmed)
        st.off specs.mtu with
    | .mtuTooSmall => .error (.mtuTooSmall, st)
    | .panicUnderflow => .error (.panic, st)
    | .fits t _frame =>
      match sendLoop dev st.off t st specs.nbRetry with
      | .error e => .error e
      | .ok st1 =>
        if offStart = st1.off then .error (.wrongOffset, st1)
        else if st1.off = D.length then .ok st1
        else
          uploadLoop dev specs D hashD slot seqs fuel
            { st1 with timeout := .subsequentTimeout }

/-- A whole upload run from the initial state (image.rs lines 189-196): the
offset starts at 0, nothing sent or confirmed, the port still on the initial
timeout from `open_port`. -/
def uploadRun (dev : Nat → Nat → Nat → DevResp) (specs : SerialSpecs)
    (D hashD : List Nat) (slot : Nat) (seqs : Nat → Nat) (fuel : Nat) :
    Except (UploadErr × UploadSt) UploadSt :=
  uploadLoop dev specs D hashD slot seqs fuel
    ⟨0, 0, 0, .initialTimeout, []⟩

/-- The device model of the offset-progress claim: every chunk is confirmed
with `rc = 0` and `off' = off + |data|` capped at the file length. -/
def goodDevice (D : List Nat) : Nat → Nat → Nat → DevResp :=
  fun _ off t =>
    .body (.map [(.text "rc", .int 0),
                 (.text "off", .int (Int.ofNat (min (off + t) D.length)))])

/-- The fitted chunk length of a fit-loop outcome, when it fits. -/
def FitRes.tOf : FitRes → Option Nat
  | .fits t _ => some t
  | _ => none

/- ############################################################
   Theorems.
   ############################################################ -/

/- ## Sequence counter lemmas -/

/-- Closed form of the counter value. -/
theorem seqAt_eq (s : Nat) (hs : s < 256) : ∀ i, seqAt s i = (s + i) % 256 := by
  intro i
  induction i with
  | zero => simp [seqAt, Nat.mod_eq_of_lt hs]
  | succ k ih => simp only [seqAt, ih]; omega

/-- Claim C9: `next_seq_id` is an atomic u8 counter returning the
pre-increment value; from any seed below 256, the values of 256 consecutive
calls are a permutation of `0..=255`, and the 257th call returns the same
value as the first. -/
theorem seq_counter_permutation (s : Nat) (hs : s < 256) :
    List.Perm ((List.range 256).map (seqAt s)) (List.range 256) ∧
    seqAt s 256 = seqAt s 0 := by
  constructor
  · have hmap : (List.range 256).map (seqAt s) =
        (List.range 256).map (fun i => (s + i) % 256) :=
      List.map_congr_left (fun i _ => seqAt_eq s hs i)
    rw [hmap]
    have hnodup : ((List.range 256).map (fun i => (s + i) % 256)).Nodup := by
      refine List.Nodup.map_on ?_ (List.nodup_range 256)
      intro x hx y hy hxy
      simp only [List.mem_range] at hx hy
      omega
    have hsub : ((List.range 256).map (fun i => (s + i) % 256)) ⊆
        List.range 256 := by
      intro x hx
      simp only [List.mem_map, List.mem_range] at hx ⊢
      obtain ⟨i, _, hix⟩ := hx
      omega
    exact (List.subperm_of_subset hnodup hsub).perm_of_length_le (by simp)
  · rw [seqAt_eq s hs, seqAt_eq s hs]
    omega

/-- Witness for C9 at the concrete seed 3. -/
theorem seq_counter_permutation_witness :
    List.Perm ((List.range 256).map (seqAt 3)) (List.range 256) ∧
    seqAt 3 256 = seqAt 3 0 :=
  seq_counter_permutation 3 (by decide)

/- ## Header codec -/

/-- Claim C8: the 8-byte header round-trips: serialization is 8 bytes in
big-endian field order op, flags, len, group, seq, id, and deserializing it
returns the original header (for any header whose `len` is a u16 value; the
op and group domains are the enumerated ones by construction). -/
theorem header_roundtrip (h : NmpHdr) (hlen : h.len < 65536) :
    NmpHdr.deserialize (NmpHdr.serialize h) = .ok h ∧
    (NmpHdr.serialize h).length = 8 := by
  obtain ⟨op, flags, len, group, seq, id⟩ := h
  refine ⟨?_, rfl⟩
  simp only at hlen
  cases op <;> cases group <;>
    simp [NmpHdr.serialize, NmpHdr.deserialize, NmpOp.toNat, NmpGroup.toNat,
      NmpOp.fromNat, NmpGroup.fromNat] <;>
    omega

/-- Witness for C8 on a concrete header. -/
theorem header_roundtrip_witness :
    NmpHdr.deserialize (NmpHdr.serialize ⟨.write, 0, 300, .image, 7, 1⟩) =
      .ok ⟨.write, 0, 300, .image, 7, 1⟩ ∧
    (NmpHdr.serialize (⟨.write, 0, 300, .image, 7, 1⟩ : NmpHdr)).length = 8 :=
  header_roundtrip ⟨.write, 0, 300, .image, 7, 1⟩ (by decide)

/-- Claim C3 (the code panics instead): on a response header whose group
field is 10 (outside the enumerated set 0..9, 64) `NmpHdr::deserialize` hits
the `.unwrap()` of `FromPrimitive::from_u16(10) = None` and panics — and
likewise for an op value outside 0..3 — rather than returning a decode
error that fails the transaction. -/
theorem deserialize_unknown_group_panics :
    NmpHdr.deserialize [1, 0, 0, 0, 0, 10, 0, 0] = .error .panicUnknownGroup ∧
    NmpHdr.deserialize [4, 0, 0, 0, 0, 1, 0, 0] = .error .panicUnknownOp ∧
    NmpGroup.fromNat 10 = none ∧ NmpOp.fromNat 4 = none := by
  refine ⟨rfl, rfl, rfl, rfl⟩

/- ## Fit-loop step semantics -/

/-- The fit worker ignores its step budget as long as the budget exceeds the
chunk length (each retry shrinks the chunk length by at least 3). -/
theorem fitGoAux_irrel (ll mtu : Nat) (D hashD : List Nat)
    (slot seq off : Nat) :
    ∀ fuel fuel' t, t < fuel → t < fuel' →
      fitGoAux ll mtu D hashD slot seq off fuel t =
        fitGoAux ll mtu D hashD slot seq off fuel' t := by
  intro fuel
  induction fuel with
  | zero => intro fuel' t h1 _; omega
  | succ f ih =>
    intro fuel' t h1 h2
    cases fuel' with
    | zero => omega
    | succ f2 =>
      simp only [fitGoAux]
      split_ifs with hx hy hz
      · rfl
      · rfl
      · exact ih f2 _ (by omega) (by omega)
      · rfl

/-- One-step unfolding of the build-and-reduce cycle. -/
theorem fitGo_eq (ll mtu : Nat) (D hashD : List Nat) (slot seq off t : Nat) :
    fitGo ll mtu D hashD slot seq off t =
      (if mtu < (uploadFrame ll D hashD slot seq off t).length then
         if t < (uploadFrame ll D hashD slot seq off t).length - mtu then
           .mtuTooSmall
         else if t < ((uploadFrame ll D hashD slot seq off t).length - mtu)
             * 3 / 4 + 3 then .panicUnderflow
         else fitGo ll mtu D hashD slot seq off
           (t - (((uploadFrame ll D hashD slot seq off t).length - mtu)
             * 3 / 4 + 3))
       else .fits t (uploadFrame ll D hashD slot seq off t)) := by
  show fitGoAux ll mtu D hashD slot seq off (t + 1) t = _
  simp only [fitGoAux]
  split_ifs with hx hy hz
  · rfl
  · rfl
  · exact fitGoAux_irrel ll mtu D hashD slot seq off _ _ _ (by omega) (by omega)
  · rfl

/-- Amended claim C4: in the fit loop, when the built frame exceeds the MTU
by `excess`: if `excess > try_length` the engine fails *MTU too small*; if
`excess ≤ try_length` the engine attempts to reduce `try_length` by exactly
`excess * 3 / 4 + 3`, which retries the build when that amount still fits
into `try_length` but **underflows the `usize` subtraction (a panic, and the
reduced value is not positive) whenever `try_length < excess * 3 / 4 + 3`** —
positivity of the reduced length is not guaranteed in general. -/
theorem fit_step_semantics (ll mtu : Nat) (D hashD : List Nat)
    (slot seq off t : Nat)
    (hgt : mtu < (uploadFrame ll D hashD slot seq off t).length) :
    (t < (uploadFrame ll D hashD slot seq off t).length - mtu →
      fitGo ll mtu D hashD slot seq off t = .mtuTooSmall) ∧
    ((uploadFrame ll D hashD slot seq off t).length - mtu ≤ t →
      t < ((uploadFrame ll D hashD slot seq off t).length - mtu) * 3 / 4 + 3 →
      fitGo ll mtu D hashD slot seq off t = .panicUnderflow) ∧
    ((uploadFrame ll D hashD slot seq off t).length - mtu ≤ t →
      ((uploadFrame ll D hashD slot seq off t).length - mtu) * 3 / 4 + 3 ≤ t →
      fitGo ll mtu D hashD slot seq off t =
        fitGo ll mtu D hashD slot seq off
          (t - (((uploadFrame ll D hashD slot seq off t).length - mtu)
            * 3 / 4 + 3))) := by
  refine ⟨fun h1 => ?_, fun h1 h2 => ?_, fun h1 h2 => ?_⟩ <;>
    rw [fitGo_eq] <;> rw [if_pos hgt]
  · rw [if_pos h1]
  · rw [if_neg (by omega), if_pos h2]
  · rw [if_neg (by omega), if_neg (by omega)]

/-- Witness for the amended C4 at the concrete state of the counterexample:
`mtu = 47`, `linelength = 128`, `off = 100`, `try_length = 4` on a 104-byte
file (frame length 51, excess 4). -/
theorem fit_step_semantics_witness :
    (4 < (uploadFrame 128 (List.replicate 104 0) (List.replicate 32 0)
        0 0 100 4).length - 47 →
      fitGo 128 47 (List.replicate 104 0) (List.replicate 32 0) 0 0 100 4 =
        .mtuTooSmall) ∧
    ((uploadFrame 128 (List.replicate 104 0) (List.replicate 32 0)
        0 0 100 4).length - 47 ≤ 4 →
      4 < ((uploadFrame 128 (List.replicate 104 0) (List.replicate 32 0)
        0 0 100 4).length - 47) * 3 / 4 + 3 →
      fitGo 128 47 (List.replicate 104 0) (List.replicate 32 0) 0 0 100 4 =
        .panicUnderflow) ∧
    ((uploadFrame 128 (List.replicate 104 0) (List.replicate 32 0)
        0 0 100 4).length - 47 ≤ 4 →
      ((uploadFrame 128 (List.replicate 104 0) (List.replicate 32 0)
        0 0 100 4).length - 47) * 3 / 4 + 3 ≤ 4 →
      fitGo 128 47 (List.replicate 104 0) (List.replicate 32 0) 0 0 100 4 =
        fitGo 128 47 (List.replicate 104 0) (List.replicate 32 0) 0 0 100
          (4 - (((uploadFrame 128 (List.replicate 104 0)
            (List.replicate 32 0) 0 0 100 4).length - 47) * 3 / 4 + 3))) :=
  fit_step_semantics 128 47 (List.replicate 104 0) (List.replicate 32 0)
    0 0 100 4 (by decide)

/-- Counterexample to claim C4 as stated: at `mtu = 47`, `linelength = 128`,
`off = 100`, `try_length = 4` on a 104-byte file the built frame is 51 bytes,
so `excess = 4 ≤ try_length`, yet the engine neither fails *MTU too small*
nor retries with a positive reduced length: the subtraction
`try_length - (excess * 3 / 4 + 3) = 4 - 6` underflows (a panic). -/
theorem fit_reduction_underflow_counterexample :
    47 < (uploadFrame 128 (List.replicate 104 0) (List.replicate 32 0)
      0 0 100 4).length ∧
    (uploadFrame 128 (List.replicate 104 0) (List.replicate 32 0)
      0 0 100 4).length - 47 ≤ 4 ∧
    fitGo 128 47 (List.replicate 104 0) (List.replicate 32 0) 0 0 100 4 =
      .panicUnderflow := by
  refine ⟨by decide, by decide, by decide⟩

/- ## Device-reported rc handling -/

/-- Counterexample to claim C2: a response map carrying `"rc" = 2^32`
(a nonzero integer) is accepted as success by the rc validation that `erase`
and `test` perform, because `get_rc` truncates the i128 value with `as u32`
before the zero test. -/
theorem rc_width_coercion_counterexample :
    checkRcDevice (.map [(.text "rc", .int 4294967296)]) = .ok () ∧
    (4294967296 : Int) ≠ 0 :=
  ⟨rfl, by decide⟩

/-- Amended claim C2: `upload` checks the `"rc"` integer verbatim and fails
with the untruncated value; `erase` and `test` first truncate it `as u32`
and fail exactly when the truncated value is nonzero, reporting the
truncated value. -/
theorem rc_check_semantics (v : Int) (off : Nat) :
    uploadRespScan off (.map [(.text "rc", .int v)]) =
      (if v = 0 then .ok off else .error v) ∧
    checkRcDevice (.map [(.text "rc", .int v)]) =
      (if intToU32 v = 0 then .ok () else .error (intToU32 v)) := by
  constructor
  · simp only [uploadRespScan, uploadScan, if_pos rfl]
    by_cases hv : v = 0
    · simp [hv, uploadScan]
    · simp [hv]
  · simp only [checkRcDevice, get_rc, getRcLoop, if_pos rfl]
    by_cases hz : intToU32 v = 0
    · simp [hz]
    · simp [hz]

/- ## First-chunk metadata -/

/-- Claim C6: the request built by the upload engine carries `len` (equal to
the file length, a u32-ranged value) and `sha` (the digest of the whole
file, `hashD` = `Sha256::digest(&data)`) exactly when its offset is 0, and
for a nonzero offset its serialized CBOR map contains neither a `len` nor a
`sha` key — the key list is then exactly `data`, `image`, `off`. -/
theorem first_chunk_metadata (D hashD : List Nat) (slot off t : Nat)
    (hD : D.length < 4294967296) :
    ((buildUploadReq D hashD slot off t).len =
      if off = 0 then some D.length else none) ∧
    ((buildUploadReq D hashD slot off t).data_sha =
      if off = 0 then some hashD else none) ∧
    (uploadReqKeys (buildUploadReq D hashD slot off t) =
      if off = 0 then
        [[100, 97, 116, 97], [105, 109, 97, 103, 101], [108, 101, 110],
         [111, 102, 102], [115, 104, 97]]
      else [[100, 97, 116, 97], [105, 109, 97, 103, 101], [111, 102, 102]]) := by
  by_cases h : off = 0 <;>
    simp [buildUploadReq, uploadReqKeys, uploadReqEntries, h,
      Nat.mod_eq_of_lt hD]

/-- Witness for C6 on a concrete file and both a zero and nonzero offset
(two applications of the theorem at concrete inputs). -/
theorem first_chunk_metadata_witness :
    (((buildUploadReq [5, 6, 7] [9] 0 0 3).len =
        if (0 : Nat) = 0 then some (List.length [5, 6, 7]) else none) ∧
     ((buildUploadReq [5, 6, 7] [9] 0 0 3).data_sha =
        if (0 : Nat) = 0 then some [9] else none) ∧
     (uploadReqKeys (buildUploadReq [5, 6, 7] [9] 0 0 3) =
        if (0 : Nat) = 0 then
          [[100, 97, 116, 97], [105, 109, 97, 103, 101], [108, 101, 110],
           [111, 102, 102], [115, 104, 97]]
        else [[100, 97, 116, 97], [105, 109, 97, 103, 101], [111, 102, 102]])) ∧
    ((buildUploadReq [5, 6, 7] [9] 0 2 1).len =
        if (2 : Nat) = 0 then some (List.length [5, 6, 7]) else none) :=
  ⟨first_chunk_metadata [5, 6, 7] [9] 0 0 3 (by decide),
   (first_chunk_metadata [5, 6, 7] [9] 0 2 1 (by decide)).1⟩

/- ## Upload-loop unfolding lemmas -/

/-- One-step unfolding of the send-and-retry cycle. -/
theorem sendLoop_eq (dev : Nat → Nat → Nat → DevResp) (off t : Nat)
    (st : UploadSt) (nbRetry : Nat) :
    sendLoop dev off t st nbRetry =
      (match dev st.sent off t with
       | .timeout =>
         match nbRetry with
         | 0 => .error (.timeoutGiveUp,
             { st with sent := st.sent + 1, trace := st.trace ++ [st.timeout] })
         | r + 1 => sendLoop dev off t
             { st with sent := st.sent + 1, trace := st.trace ++ [st.timeout] } r
       | .badAnswer => .error (.wrongAnswer,
           { st with sent := st.sent + 1, trace := st.trace ++ [st.timeout] })
       | .body v =>
         match uploadRespScan st.off v with
         | .error i => .error (.deviceRc i,
             { st with sent := st.sent + 1, trace := st.trace ++ [st.timeout] })
         | .ok newOff =>
           .ok { st with off := newOff, sent := st.sent + 1, confirmed := st.confirmed + 1, trace := st.trace ++ [st.timeout] }) := by
  cases nbRetry <;> cases hdev : dev st.sent off t <;> simp only [sendLoop, hdev]

/-- The send cycle on a response body never retries: the retry budget is
irrelevant and the body is scanned for `rc`/`off`. -/
theorem sendLoop_body (dev : Nat → Nat → Nat → DevResp) (off t : Nat)
    (st : UploadSt) (nbRetry : Nat) (v : CborVal)
    (hdev : dev st.sent off t = .body v) :
    sendLoop dev off t st nbRetry =
      (match uploadRespScan st.off v with
       | .error i => .error (.deviceRc i,
           { st with sent := st.sent + 1, trace := st.trace ++ [st.timeout] })
       | .ok newOff =>
         .ok { st with off := newOff, sent := st.sent + 1, confirmed := st.confirmed + 1, trace := st.trace ++ [st.timeout] }) := by
  rw [sendLoop_eq, hdev]

/-- One-step unfolding of the outer chunk loop. -/
theorem uploadLoop_succ (dev : Nat → Nat → Nat → DevResp)
    (specs : SerialSpecs) (D hashD : List Nat) (slot : Nat)
    (seqs : Nat → Nat) (fuel : Nat) (st : UploadSt) :
    uploadLoop dev specs D hashD slot seqs (fuel + 1) st =
      (match fitLoop specs.linelength specs.mtu D hashD slot
          (seqs st.confirmed) st.off specs.mtu with
       | .mtuTooSmall => .error (.mtuTooSmall, st)
       | .panicUnderflow => .error (.panic, st)
       | .fits t _frame =>
         match sendLoop dev st.off t st specs.nbRetry with
         | .error e => .error e
         | .ok st1 =>
           if st.off = st1.off then .error (.wrongOffset, st1)
           else if st1.off = D.length then .ok st1
           else uploadLoop dev specs D hashD slot seqs fuel
             { st1 with timeout := .subsequentTimeout }) := rfl

/- ## Offset adoption without range check (C10) -/

/-- Truncation is the identity on small natural offsets. -/
theorem intToUsize_ofNat (n : Nat) (h : n < 18446744073709551616) :
    intToUsize (Int.ofNat n) = n := by
  simp [intToUsize]
  omega

/-- Scanning a confirm response `{rc: 0, off: v}` adopts `v as usize`
without any range check. -/
theorem uploadRespScan_rc0_off (off : Nat) (v : Int) :
    uploadRespScan off (.map [(.text "rc", .int 0), (.text "off", .int v)]) =
      .ok (intToUsize v) := by
  simp [uploadRespScan, uploadScan]

/-- Claim C10: the engine adopts the device-returned `off` unchecked; if a
confirmed chunk's response carries an integer `off` whose `as usize` value
exceeds the file length (a too-large value, or any negative value wrapping
through the cast), the next loop iteration's clamp `data.len() - off`
underflows — in a debug build an immediate abort, in release the wrapped
length makes the chunk slice `data[off..off + try_length]` go out of bounds
— i.e. the run ends in a panic, not in a returned error. -/
theorem offset_adoption_panics
    (dev : Nat → Nat → Nat → DevResp) (specs : SerialSpecs)
    (D hashD : List Nat) (slot : Nat) (seqs : Nat → Nat) (fuel : Nat)
    (st : UploadSt) (t : Nat) (v : Int)
    (hfit : FitRes.tOf (fitLoop specs.linelength specs.mtu D hashD slot
      (seqs st.confirmed) st.off specs.mtu) = some t)
    (hdev : dev st.sent st.off t =
      .body (.map [(.text "rc", .int 0), (.text "off", .int v)]))
    (hoff : st.off ≤ D.length)
    (hbig : D.length < intToUsize v) :
    ∃ st2, uploadLoop dev specs D hashD slot seqs (fuel + 2) st =
      .error (.panic, st2) := by
  obtain ⟨frame, hfl⟩ : ∃ frame,
      fitLoop specs.linelength specs.mtu D hashD slot (seqs st.confirmed)
        st.off specs.mtu = .fits t frame := by
    cases hq : fitLoop specs.linelength specs.mtu D hashD slot
        (seqs st.confirmed) st.off specs.mtu with
    | fits t2 frame =>
      rw [hq] at hfit
      simp only [FitRes.tOf, Option.some.injEq] at hfit
      exact ⟨frame, by rw [hfit]⟩
    | mtuTooSmall => rw [hq] at hfit; simp [FitRes.tOf] at hfit
    | panicUnderflow => rw [hq] at hfit; simp [FitRes.tOf] at hfit
  have h1 : ¬(st.off = intToUsize v) := by omega
  have h2 : ¬(intToUsize v = D.length) := by omega
  have h3 : D.length < intToUsize v + specs.mtu := by omega
  refine ⟨{ st with off := intToUsize v, sent := st.sent + 1, confirmed := st.confirmed + 1, trace := st.trace ++ [st.timeout], timeout := .subsequentTimeout }, ?_⟩
  rw [show fuel + 2 = (fuel + 1) + 1 from rfl, uploadLoop_succ, hfl]
  simp only [sendLoop_body dev st.off t st specs.nbRetry
      (.map [(.text "rc", .int 0), (.text "off", .int v)]) hdev,
    uploadRespScan_rc0_off, h1, h2, ite_false, uploadLoop_succ, fitLoop, h3,
    hbig, ite_true, if_true, if_false]

set_option maxRecDepth 2000 in
/-- Witness for C10: a device that confirms the first chunk of a 5-byte file
with `off = 9999` drives the next iteration into the underflow panic. -/
theorem offset_adoption_panics_witness :
    ∃ st2,
      uploadLoop
        (fun _ _ _ => .body (.map [(.text "rc", .int 0),
                                   (.text "off", .int 9999)]))
        ⟨128, 10000, 3⟩ (List.replicate 5 7) (List.replicate 32 0) 0
        (fun _ => 0) 3 ⟨0, 0, 0, .initialTimeout, []⟩ =
      .error (.panic, st2) :=
  offset_adoption_panics
    (fun _ _ _ => .body (.map [(.text "rc", .int 0), (.text "off", .int 9999)]))
    ⟨128, 10000, 3⟩ (List.replicate 5 7) (List.replicate 32 0) 0
    (fun _ => 0) 1 ⟨0, 0, 0, .initialTimeout, []⟩ 5
    9999 (by decide) rfl (by decide) (by decide)

/- ## Length bookkeeping for frames -/

/-- Base64 output length: four characters per started 3-byte group. -/
theorem b64encode_length (bs : List Nat) :
    (b64encode bs).length = 4 * ((bs.length + 2) / 3) := by
  induction bs using b64encode.induct with
  | case1 => simp [b64encode]
  | case2 b1 => simp [b64encode]
  | case3 b1 b2 => simp [b64encode]
  | case4 b1 b2 b3 rest ih =>
    simp only [b64encode, List.length_cons, ih]
    omega

/-- Length of the rendered continuation lines. -/
theorem renderCont_length (cs : List (List Nat)) :
    (renderCont cs).length = 3 * cs.length + (cs.map List.length).sum := by
  induction cs with
  | nil => simp [renderCont]
  | cons c cs ih => simp [renderCont, ih]; omega

/-- Length of the rendered lines. -/
theorem renderLines_length (cs : List (List Nat)) :
    (renderLines cs).length = 3 * cs.length + (cs.map List.length).sum := by
  cases cs with
  | nil => simp [renderLines]
  | cons c cs => simp [renderLines, renderCont_length]; omega

/-- The chunks reassemble to the original list, whatever the budget. -/
theorem chunksOfGo_flatten (w : Nat) :
    ∀ fuel l, (chunksOfGo w fuel l).flatten = l := by
  intro fuel
  induction fuel with
  | zero => intro l; cases l <;> simp [chunksOfGo]
  | succ f ih =>
    intro l
    cases l with
    | nil => simp [chunksOfGo]
    | cons b bs => simp [chunksOfGo, ih]

/-- The chunk count is the ceiling of the length over the width. -/
theorem chunksOfGo_count (w : Nat) (hw : 1 ≤ w) :
    ∀ fuel l, l.length ≤ fuel →
      (chunksOfGo w fuel l).length = (l.length + (w - 1)) / w := by
  intro fuel
  induction fuel with
  | zero =>
    intro l hl
    have : l = [] := List.length_eq_zero.mp (by omega)
    subst this
    simp only [chunksOfGo, List.length_nil, List.length, Nat.zero_add]
    exact (Nat.div_eq_of_lt (by omega)).symm
  | succ f ih =>
    intro l hl
    cases l with
    | nil =>
      simp only [chunksOfGo, List.length_nil, List.length, Nat.zero_add]
      exact (Nat.div_eq_of_lt (by omega)).symm
    | cons b bs =>
      have hl' : bs.length + 1 ≤ f + 1 := by simpa using hl
      have hrec := ih ((b :: bs).drop w)
        (by simp only [List.length_drop, List.length_cons]; omega)
      simp only [chunksOfGo, List.length_cons, hrec, List.length_drop,
        List.length_cons]
      rcases Nat.lt_or_ge (bs.length + 1) w with hc | hc
      · have e1 : bs.length + 1 - w = 0 := by omega
        have e2 : (bs.length + 1 + (w - 1)) / w = 1 := by
          apply Nat.div_eq_of_lt_le <;> omega
        rw [e1, e2, Nat.zero_add, Nat.div_eq_of_lt (show w - 1 < w by omega)]
      · have h1 : bs.length + 1 + (w - 1) = (bs.length + 1 - w + (w - 1)) + w := by
          omega
        rw [h1, Nat.add_div_right _ (by omega)]

/-- Chunks are nonempty and at most `w` long (given an adequate budget). -/
theorem chunksOfGo_mem (w : Nat) (hw : 1 ≤ w) :
    ∀ fuel l, l.length ≤ fuel →
      ∀ ch ∈ chunksOfGo w fuel l, ch ≠ [] ∧ ch.length ≤ w := by
  intro fuel
  induction fuel with
  | zero =>
    intro l hl
    have : l = [] := List.length_eq_zero.mp (by omega)
    subst this
    simp [chunksOfGo]
  | succ f ih =>
    intro l hl ch hch
    cases l with
    | nil => simp [chunksOfGo] at hch
    | cons b bs =>
      have hl' : bs.length + 1 ≤ f + 1 := by simpa using hl
      simp only [chunksOfGo, List.mem_cons] at hch
      rcases hch with h | h
      · subst h
        constructor
        · apply List.ne_nil_of_length_pos
          simp only [List.length_take, List.length_cons]
          omega
        · simp only [List.length_take, List.length_cons]
          omega
      · exact ih _
          (by simp only [List.length_drop, List.length_cons]; omega) ch h

/-- The wrapped frame's byte count depends only on the payload's length. -/
theorem wrapFrame_length_congr (L : Nat) (hL : 5 ≤ L) (p q : List Nat)
    (hpq : p.length = q.length) :
    (wrapFrame L p).length = (wrapFrame L q).length := by
  have key : ∀ r : List Nat, (wrapFrame L r).length =
      3 * ((4 * ((r.length + 6) / 3) + (L - 4 - 1)) / (L - 4)) +
        4 * ((r.length + 6) / 3) := by
    intro r
    show (renderLines (chunksOf (L - 4)
      (b64encode (be16 (r ++ be16 (crc16 r)).length ++ (r ++ be16 (crc16 r)))))).length = _
    rw [renderLines_length]
    set bb := b64encode (be16 (r ++ be16 (crc16 r)).length ++ (r ++ be16 (crc16 r))) with hbb
    have hlen : bb.length = 4 * ((r.length + 6) / 3) := by
      rw [hbb, b64encode_length]
      simp [be16]
    have hsum : ((chunksOf (L - 4) bb).map List.length).sum = bb.length := by
      rw [← List.length_flatten, chunksOf, chunksOfGo_flatten]
    have hcount : (chunksOf (L - 4) bb).length =
        (bb.length + (L - 4 - 1)) / (L - 4) := by
      rw [chunksOf, chunksOfGo_count (L - 4) (by omega) _ _ (le_refl _)]
    rw [hsum, hcount, hlen]
  rw [key p, key q, hpq]

/-- The framed byte count of an upload chunk does not depend on the sequence
number in the header (only one byte of the 8-byte header changes). -/
theorem uploadFrame_length_seq (ll : Nat) (hll : 5 ≤ ll)
    (D hashD : List Nat) (slot seq seq' off t : Nat) :
    (uploadFrame ll D hashD slot seq off t).length =
      (uploadFrame ll D hashD slot seq' off t).length := by
  simp only [uploadFrame, encodeRequest]
  apply wrapFrame_length_congr ll hll
  simp [NmpHdr.serialize]

/-- The fitted chunk length is insensitive to the sequence number. -/
theorem fitGoAux_tOf_seq (ll mtu : Nat) (hll : 5 ≤ ll)
    (D hashD : List Nat) (slot seq seq' off : Nat) :
    ∀ fuel t, FitRes.tOf (fitGoAux ll mtu D hashD slot seq off fuel t) =
      FitRes.tOf (fitGoAux ll mtu D hashD slot seq' off fuel t) := by
  intro fuel
  induction fuel with
  | zero => intro t; rfl
  | succ f ih =>
    intro t
    have hlen := uploadFrame_length_seq ll hll D hashD slot seq seq' off t
    simp only [fitGoAux]
    rw [hlen]
    split_ifs with hx hy hz
    · rfl
    · rfl
    · exact ih _
    · simp only [FitRes.tOf]

/-- The fit loop's chunk length is insensitive to the sequence number. -/
theorem fitLoop_tOf_seq (ll mtu : Nat) (hll : 5 ≤ ll)
    (D hashD : List Nat) (slot seq seq' off tryLength : Nat) :
    FitRes.tOf (fitLoop ll mtu D hashD slot seq off tryLength) =
      FitRes.tOf (fitLoop ll mtu D hashD slot seq' off tryLength) := by
  simp only [fitLoop]
  split_ifs with hx hy
  · rfl
  · exact fitGoAux_tOf_seq ll mtu hll D hashD slot seq seq' off _ _
  · exact fitGoAux_tOf_seq ll mtu hll D hashD slot seq seq' off _ _

/- ## The upload loop against a well-behaved device -/

/-- Inversion for `FitRes.tOf`. -/
theorem FitRes.tOf_eq_some {r : FitRes} {t : Nat} (h : FitRes.tOf r = some t) :
    ∃ frame, r = .fits t frame := by
  cases r with
  | fits t2 f =>
    simp only [FitRes.tOf, Option.some.injEq] at h
    exact ⟨f, by rw [h]⟩
  | mtuTooSmall => simp [FitRes.tOf] at h
  | panicUnderflow => simp [FitRes.tOf] at h

/-- Main loop invariant against the capped-increment device: when the fit
loop always yields the chunk `min c (|D| - off)`, the loop from any state
short of the end uploads the remaining `|D| - off` bytes in exactly
`ceil((|D| - off) / c)` confirmed transactions, the first sent with the
entry timeout setting and all further ones with the subsequent setting,
which also remains in effect at the end unless the first chunk was the
last. -/
theorem goodRunAux (specs : SerialSpecs) (hll : 5 ≤ specs.linelength)
    (D hashD : List Nat) (slot : Nat) (seqs : Nat → Nat) (c : Nat)
    (hc : 1 ≤ c) (hD64 : D.length < 18446744073709551616)
    (hfit : ∀ off, off < D.length →
      FitRes.tOf (fitLoop specs.linelength specs.mtu D hashD slot 0 off
        specs.mtu) = some (min c (D.length - off))) :
    ∀ fuel st, st.off < D.length → D.length - st.off ≤ fuel →
      uploadLoop (goodDevice D) specs D hashD slot seqs fuel st =
        .ok { off := D.length,
              sent := st.sent + (D.length - st.off + (c - 1)) / c,
              confirmed := st.confirmed + (D.length - st.off + (c - 1)) / c,
              timeout := if D.length - st.off ≤ c then st.timeout
                         else .subsequentTimeout,
              trace := st.trace ++ [st.timeout] ++
                List.replicate ((D.length - st.off + (c - 1)) / c - 1)
                  .subsequentTimeout } := by
  intro fuel
  induction fuel with
  | zero => intro st h1 h2; omega
  | succ f ih =>
    intro st h1 h2
    have hfit1 : FitRes.tOf (fitLoop specs.linelength specs.mtu D hashD slot
        (seqs st.confirmed) st.off specs.mtu) =
        some (min c (D.length - st.off)) := by
      rw [fitLoop_tOf_seq specs.linelength specs.mtu hll D hashD slot
        (seqs st.confirmed) 0 st.off specs.mtu]
      exact hfit st.off h1
    obtain ⟨frame, hfl⟩ := FitRes.tOf_eq_some hfit1
    have hnew : intToUsize (Int.ofNat
        (min (st.off + min c (D.length - st.off)) D.length)) =
        min (st.off + min c (D.length - st.off)) D.length :=
      intToUsize_ofNat _ (by omega)
    have hne : ¬(st.off = min (st.off + min c (D.length - st.off)) D.length) := by
      omega
    rw [uploadLoop_succ, hfl]
    simp only [sendLoop_body (goodDevice D) st.off
        (min c (D.length - st.off)) st specs.nbRetry _ rfl,
      uploadRespScan_rc0_off, hnew, hne, ite_false]
    by_cases hlast : min (st.off + min c (D.length - st.off)) D.length =
        D.length
    · rw [if_pos hlast]
      have hk : (D.length - st.off + (c - 1)) / c = 1 :=
        Nat.div_eq_of_lt_le (by omega) (by omega)
      rw [hlast, hk]
      have hrem : D.length - st.off ≤ c := by omega
      rw [if_pos hrem]
      simp
    · rw [if_neg hlast]
      have hclt : c < D.length - st.off := by omega
      have hoc : min (st.off + min c (D.length - st.off)) D.length =
          st.off + c := by omega
      rw [hoc]
      have hrec := ih ⟨st.off + c, st.sent + 1, st.confirmed + 1,
        .subsequentTimeout, st.trace ++ [st.timeout]⟩ (by simp; omega)
        (by simp; omega)
      simp only at hrec
      rw [hrec]
      have hksucc : (D.length - st.off + (c - 1)) / c =
          (D.length - (st.off + c) + (c - 1)) / c + 1 := by
        have e : D.length - st.off + (c - 1) =
            (D.length - (st.off + c) + (c - 1)) + c := by omega
        rw [e, Nat.add_div_right _ (by omega)]
      have hk1 : 1 ≤ (D.length - (st.off + c) + (c - 1)) / c := by
        have hcle : c ≤ D.length - (st.off + c) + (c - 1) := by omega
        exact Nat.one_le_div_iff (by omega) |>.mpr hcle
      congr 1
      congr 1
      · omega
      · omega
      · rw [ite_self, if_neg (by omega)]
      · rw [hksucc, Nat.add_sub_cancel]
        rw [show (D.length - (st.off + c) + (c - 1)) / c =
          ((D.length - (st.off + c) + (c - 1)) / c - 1) + 1 from by omega]
        rw [List.replicate_succ]
        simp

/-- Amended claim C5: (1) for a nonempty file and a device that answers
every chunk with `rc = 0` and `off' = off + |data|` capped at `|D|`, if the
fit loop yields the chunk length `min c (|D| - off)` at every offset (a
constant fitted chunk size `c`, clamped at the tail — the fitted size is
*not* constant in general, e.g. the first chunk also carries `len`/`sha`),
the upload loop terminates with final `off = |D|` after exactly
`ceil(|D|/c)` successful transactions (`sent = confirmed = ceil(|D|/c)`);
(2) for any device whose answer to a chunk carries `off'` equal to the
offset the chunk started at, the engine fails with *wrong offset
received*. -/
theorem upload_offset_progress_semantics :
    (∀ (specs : SerialSpecs) (D hashD : List Nat) (slot : Nat)
      (seqs : Nat → Nat) (c fuel : Nat),
      5 ≤ specs.linelength → 1 ≤ c → 1 ≤ D.length →
      D.length < 18446744073709551616 → D.length ≤ fuel →
      (∀ off, off < D.length →
        FitRes.tOf (fitLoop specs.linelength specs.mtu D hashD slot 0 off
          specs.mtu) = some (min c (D.length - off))) →
      uploadRun (goodDevice D) specs D hashD slot seqs fuel =
        .ok ⟨D.length, (D.length + (c - 1)) / c, (D.length + (c - 1)) / c,
             (if D.length ≤ c then .initialTimeout else .subsequentTimeout),
             .initialTimeout ::
               List.replicate ((D.length + (c - 1)) / c - 1)
                 .subsequentTimeout⟩) ∧
    (∀ (dev : Nat → Nat → Nat → DevResp) (specs : SerialSpecs)
      (D hashD : List Nat) (slot : Nat) (seqs : Nat → Nat) (fuel : Nat)
      (st : UploadSt) (t : Nat),
      FitRes.tOf (fitLoop specs.linelength specs.mtu D hashD slot
        (seqs st.confirmed) st.off specs.mtu) = some t →
      dev st.sent st.off t =
        .body (.map [(.text "rc", .int 0),
                     (.text "off", .int (Int.ofNat st.off))]) →
      st.off < 18446744073709551616 →
      ∃ st1, uploadLoop dev specs D hashD slot seqs (fuel + 1) st =
        .error (.wrongOffset, st1)) := by
  constructor
  · intro specs D hashD slot seqs c fuel hll hc hD hD64 hfuel hfit
    have h := goodRunAux specs hll D hashD slot seqs c hc hD64 hfit fuel
      ⟨0, 0, 0, .initialTimeout, []⟩ (by simpa using hD) (by simpa using hfuel)
    simp only [Nat.sub_zero, Nat.zero_add, List.nil_append] at h
    rw [uploadRun]
    simpa using h
  · intro dev specs D hashD slot seqs fuel st t hfit hdev hlt
    obtain ⟨frame, hfl⟩ := FitRes.tOf_eq_some hfit
    refine ⟨{ st with off := st.off, sent := st.sent + 1, confirmed := st.confirmed + 1, trace := st.trace ++ [st.timeout] }, ?_⟩
    rw [uploadLoop_succ, hfl]
    simp only [sendLoop_body dev st.off t st specs.nbRetry _ hdev,
      uploadRespScan_rc0_off, intToUsize_ofNat st.off hlt, ite_true, if_pos rfl]

set_option maxRecDepth 4000 in
/-- Witness for the amended C5 at a concrete instance: a 5-byte file with a
generous MTU (single fitted chunk, `c = 10000`) for part (1), and a device
echoing `off' = off = 0` for part (2). -/
theorem upload_offset_progress_semantics_witness :
    (uploadRun (goodDevice (List.replicate 5 7)) ⟨128, 10000, 3⟩
        (List.replicate 5 7) (List.replicate 32 0) 0 (fun _ => 0) 5 =
      .ok ⟨(List.replicate 5 7).length, ((List.replicate 5 7).length + (10000 - 1)) / 10000,
           ((List.replicate 5 7).length + (10000 - 1)) / 10000,
           (if (List.replicate 5 7).length ≤ 10000 then .initialTimeout
            else .subsequentTimeout),
           .initialTimeout ::
             List.replicate (((List.replicate 5 7).length + (10000 - 1)) / 10000 - 1)
               .subsequentTimeout⟩) ∧
    (∃ st1, uploadLoop
        (fun _ _ _ => .body (.map [(.text "rc", .int 0),
                                   (.text "off", .int (Int.ofNat 0))]))
        ⟨128, 10000, 3⟩ (List.replicate 5 7) (List.replicate 32 0) 0
        (fun _ => 0) 3 ⟨0, 0, 0, .initialTimeout, []⟩ =
      .error (.wrongOffset, st1)) := by
  constructor
  · exact upload_offset_progress_semantics.1 ⟨128, 10000, 3⟩
      (List.replicate 5 7) (List.replicate 32 0) 0 (fun _ => 0) 10000 5
      (by decide) (by decide) (by decide) (by decide) (by decide) (by decide)
  · exact upload_offset_progress_semantics.2
      (fun _ _ _ => .body (.map [(.text "rc", .int 0),
                                 (.text "off", .int (Int.ofNat 0))]))
      ⟨128, 10000, 3⟩ (List.replicate 5 7) (List.replicate 32 0) 0
      (fun _ => 0) 2 ⟨0, 0, 0, .initialTimeout, []⟩ 5
      (by decide) rfl (by decide)

/-- Amended claim C7: in a run where the device confirms every chunk (and
the fit loop is as in the amended C5), the transceive of the first chunk is
performed with the initial timeout and every later transceive with the
subsequent timeout; after the run the subsequent timeout is in effect if
and only if more than one chunk was needed — when the first confirmed chunk
is also the last one, the `set_timeout` call is never reached and the
initial timeout remains in effect. -/
theorem adaptive_timeout_semantics (specs : SerialSpecs)
    (D hashD : List Nat) (slot : Nat) (seqs : Nat → Nat) (c fuel : Nat)
    (hll : 5 ≤ specs.linelength) (hc : 1 ≤ c) (hD : 1 ≤ D.length)
    (hD64 : D.length < 18446744073709551616) (hfuel : D.length ≤ fuel)
    (hfit : ∀ off, off < D.length →
      FitRes.tOf (fitLoop specs.linelength specs.mtu D hashD slot 0 off
        specs.mtu) = some (min c (D.length - off))) :
    uploadRun (goodDevice D) specs D hashD slot seqs fuel =
      .ok ⟨D.length, (D.length + (c - 1)) / c, (D.length + (c - 1)) / c,
           (if (D.length + (c - 1)) / c = 1 then .initialTimeout
            else .subsequentTimeout),
           .initialTimeout ::
             List.replicate ((D.length + (c - 1)) / c - 1)
               .subsequentTimeout⟩ := by
  have h := goodRunAux specs hll D hashD slot seqs c hc hD64 hfit fuel
    ⟨0, 0, 0, .initialTimeout, []⟩ (by simpa using hD) (by simpa using hfuel)
  simp only [Nat.sub_zero, Nat.zero_add, List.nil_append] at h
  have hiff : (D.length ≤ c) ↔ ((D.length + (c - 1)) / c = 1) := by
    constructor
    · intro hle
      exact Nat.div_eq_of_lt_le (by omega) (by omega)
    · intro h1
      by_contra hgt
      have h2c : 2 * c ≤ D.length + (c - 1) := by omega
      have := (Nat.le_div_iff_mul_le (by omega)).mpr h2c
      omega
  rw [uploadRun]
  rw [if_congr hiff rfl rfl] at h
  simpa using h

set_option maxRecDepth 4000 in
/-- Witness for the amended C7 at the single-chunk instance (5-byte file,
generous MTU): one transceive, performed with the initial timeout, which is
still in effect at the end of the run. -/
theorem adaptive_timeout_semantics_witness :
    uploadRun (goodDevice (List.replicate 5 7)) ⟨128, 10000, 3⟩
        (List.replicate 5 7) (List.replicate 32 0) 0 (fun _ => 0) 5 =
      .ok ⟨(List.replicate 5 7).length,
           ((List.replicate 5 7).length + (10000 - 1)) / 10000,
           ((List.replicate 5 7).length + (10000 - 1)) / 10000,
           (if ((List.replicate 5 7).length + (10000 - 1)) / 10000 = 1 then
              .initialTimeout else .subsequentTimeout),
           .initialTimeout ::
             List.replicate
               (((List.replicate 5 7).length + (10000 - 1)) / 10000 - 1)
               .subsequentTimeout⟩ :=
  adaptive_timeout_semantics ⟨128, 10000, 3⟩ (List.replicate 5 7)
    (List.replicate 32 0) 0 (fun _ => 0) 10000 5 (by decide) (by decide)
    (by decide) (by decide) (by decide) (by decide)

/- ## Base64 round-trip lemmas -/

/-- Alphabet lookup inverts the character of any 6-bit value. -/
theorem charSextet_sextetChar (s : Nat) (hs : s < 64) :
    charSextet (sextetChar s) = some s := by
  revert s
  decide

/-- No alphabet character (or default) is the pad character 61. -/
theorem sextetChar_ne_61 (s : Nat) : sextetChar s ≠ 61 := by
  rcases Nat.lt_or_ge s 64 with h | h
  · revert h
    revert s
    decide
  · rw [sextetChar, List.getD_eq_default]
    · decide
    · have : b64alpha.length = 64 := by decide
      omega

/-- No alphabet character (or default) is the line feed 10. -/
theorem sextetChar_ne_10 (s : Nat) : sextetChar s ≠ 10 := by
  rcases Nat.lt_or_ge s 64 with h | h
  · revert h
    revert s
    decide
  · rw [sextetChar, List.getD_eq_default]
    · decide
    · have : b64alpha.length = 64 := by decide
      omega

/-- Base64 text never contains a line feed. -/
theorem b64encode_ne_10 (bs : List Nat) : ∀ ch ∈ b64encode bs, ch ≠ 10 := by
  induction bs using b64encode.induct with
  | case1 => simp [b64encode]
  | case2 b1 =>
    simp only [b64encode, List.mem_cons, List.not_mem_nil, or_false]
    rintro ch (h | h | h | h) <;> subst h <;>
      first
        | exact sextetChar_ne_10 _
        | decide
  | case3 b1 b2 =>
    simp only [b64encode, List.mem_cons, List.not_mem_nil, or_false]
    rintro ch (h | h | h | h) <;> subst h <;>
      first
        | exact sextetChar_ne_10 _
        | decide
  | case4 b1 b2 b3 rest ih =>
    simp only [b64encode, List.mem_cons]
    rintro ch (h | h | h | h | h)
    · subst h; exact sextetChar_ne_10 _
    · subst h; exact sextetChar_ne_10 _
    · subst h; exact sextetChar_ne_10 _
    · subst h; exact sextetChar_ne_10 _
    · exact ih ch h

/-- Base64 decoding inverts encoding. -/
theorem b64_roundtrip (bs : List Nat) (hb : ∀ b ∈ bs, b < 256) :
    b64decode (b64encode bs) = some bs := by
  induction bs using b64encode.induct with
  | case1 => rfl
  | case2 b1 =>
    have h1 : b1 < 256 := hb b1 (by simp)
    simp [b64encode, b64decode,
      charSextet_sextetChar (b1 / 4) (by omega),
      charSextet_sextetChar (b1 % 4 * 16) (by omega),
      Nat.mul_mod_left]
    omega
  | case3 b1 b2 =>
    have h1 : b1 < 256 := hb b1 (by simp)
    have h2 : b2 < 256 := hb b2 (by simp)
    simp [b64encode, b64decode,
      charSextet_sextetChar (b1 / 4) (by omega),
      charSextet_sextetChar (b1 % 4 * 16 + b2 / 16) (by omega),
      charSextet_sextetChar (b2 % 16 * 4) (by omega),
      sextetChar_ne_61, Nat.mul_mod_left]
    omega
  | case4 b1 b2 b3 rest ih =>
    have h1 : b1 < 256 := hb b1 (by simp)
    have h2 : b2 < 256 := hb b2 (by simp)
    have h3 : b3 < 256 := hb b3 (by simp)
    have hrest : ∀ b ∈ rest, b < 256 := fun b hbm => hb b (by simp [hbm])
    simp [b64encode, b64decode,
      charSextet_sextetChar (b1 / 4) (by omega),
      charSextet_sextetChar (b1 % 4 * 16 + b2 / 16) (by omega),
      charSextet_sextetChar (b2 % 16 * 4 + b3 / 64) (by omega),
      charSextet_sextetChar (b3 % 64) (by omega),
      sextetChar_ne_61, ih hrest]
    refine ⟨by omega, by omega, by omega⟩

/-- Encoding distributes over appending after a whole number of 3-byte
groups. -/
theorem b64encode_append (xs : List Nat) (hx : xs.length % 3 = 0) :
    ∀ ys, b64encode (xs ++ ys) = b64encode xs ++ b64encode ys := by
  induction xs using b64encode.induct with
  | case1 => intro ys; simp [b64encode]
  | case2 b1 => simp at hx
  | case3 b1 b2 => simp at hx
  | case4 b1 b2 b3 rest ih =>
    intro ys
    have hr : rest.length % 3 = 0 := by simp at hx; omega
    simp only [List.cons_append, b64encode, List.append_eq, ih hr ys]

/-- Decoding an encoded whole-group prefix peels it off. -/
theorem b64decode_prefix (xs : List Nat) (hx : xs.length % 3 = 0)
    (hb : ∀ b ∈ xs, b < 256) :
    ∀ t, b64decode (b64encode xs ++ t) = (b64decode t).map (xs ++ ·) := by
  induction xs using b64encode.induct with
  | case1 =>
    intro t
    simp only [b64encode, List.nil_append]
    cases h : b64decode t <;> simp [h]
  | case2 b1 => simp at hx
  | case3 b1 b2 => simp at hx
  | case4 b1 b2 b3 rest ih =>
    intro t
    have h1 : b1 < 256 := hb b1 (by simp)
    have h2 : b2 < 256 := hb b2 (by simp)
    have h3 : b3 < 256 := hb b3 (by simp)
    have hrest : ∀ b ∈ rest, b < 256 := fun b hbm => hb b (by simp [hbm])
    have hr : rest.length % 3 = 0 := by simp at hx; omega
    simp only [b64encode, List.cons_append, b64decode,
      charSextet_sextetChar (b1 / 4) (by omega),
      charSextet_sextetChar (b1 % 4 * 16 + b2 / 16) (by omega),
      charSextet_sextetChar (b2 % 16 * 4 + b3 / 64) (by omega),
      charSextet_sextetChar (b3 % 64) (by omega)]
    rw [if_neg (sextetChar_ne_61 _), if_neg (sextetChar_ne_61 _)]
    simp only [List.append_eq]
    rw [ih hr hrest t]
    have e1 : b1 / 4 * 4 + (b1 % 4 * 16 + b2 / 16) / 16 = b1 := by omega
    have e2 : (b1 % 4 * 16 + b2 / 16) % 16 * 16 + (b2 % 16 * 4 + b3 / 64) / 4
        = b2 := by omega
    have e3 : (b2 % 16 * 4 + b3 / 64) % 4 * 64 + b3 % 64 = b3 := by omega
    rw [e1, e2, e3]
    cases h : b64decode t <;> simp [h]

/- ## CRC and big-endian field bounds -/

/-- The CRC state stays below 2^16. -/
theorem crcRound_lt (c : Nat) : crcRound c < 65536 := by
  rw [crcRound]
  split_ifs <;> exact Nat.mod_lt _ (by omega)

/-- Iterated rounds stay below 2^16 (for at least one round). -/
theorem crcRounds_lt (n c : Nat) (hn : 1 ≤ n) : crcRounds n c < 65536 := by
  induction n generalizing c with
  | zero => omega
  | succ m ih =>
    cases m with
    | zero => exact crcRound_lt c
    | succ k => exact ih (crcRound c) (by omega)

/-- A CRC value is a u16 value. -/
theorem crc16_lt (bs : List Nat) : crc16 bs < 65536 := by
  rw [crc16]
  rcases List.eq_nil_or_concat bs with h | ⟨l, b, h⟩
  · subst h; simp
  · subst h
    rw [List.concat_eq_append, List.foldl_append]
    simp only [List.foldl_cons, List.foldl_nil, crcByte]
    exact crcRounds_lt 8 _ (by omega)

/-- Both bytes emitted for a u16 field are in range. -/
theorem be16_lt (n : Nat) : ∀ b ∈ be16 n, b < 256 := by
  intro b hb
  simp only [be16, List.mem_cons, List.not_mem_nil, or_false] at hb
  rcases hb with h | h <;> subst h <;> exact Nat.mod_lt _ (by omega)

/-- Reading back a big-endian u16 prefix. -/
theorem readU16_be16 (n : Nat) (r : List Nat) :
    readU16 (be16 n ++ r) = n % 65536 := by
  simp [readU16, be16]
  omega

/- ## Receive-loop helper lemmas -/

/-- Reading a clean line: content without a line feed, then the line feed,
then the rest. -/
theorem readUntilLF_clean (c : List Nat) (hc : ∀ b ∈ c, b ≠ 10) :
    ∀ r, readUntilLF (c ++ 10 :: r) = some (c, r) := by
  induction c with
  | nil => intro r; simp [readUntilLF]
  | cons b bs ih =>
    intro r
    have hb : b ≠ 10 := hc b (by simp)
    have hbs : ∀ x ∈ bs, x ≠ 10 := fun x hx => hc x (by simp [hx])
    simp only [List.cons_append, readUntilLF, if_neg hb, List.append_eq,
      ih hbs r]

/-- The chunking worker ignores its budget above the list length (for a
positive width). -/
theorem chunksOfGo_irrel (w : Nat) (hw : 1 ≤ w) :
    ∀ fuel fuel' l, l.length ≤ fuel → l.length ≤ fuel' →
      chunksOfGo w fuel l = chunksOfGo w fuel' l := by
  intro fuel
  induction fuel with
  | zero =>
    intro fuel' l h1 h2
    have : l = [] := List.length_eq_zero.mp (by omega)
    subst this
    cases fuel' <;> rfl
  | succ f ih =>
    intro fuel' l h1 h2
    cases l with
    | nil => cases fuel' <;> rfl
    | cons b bs =>
      cases fuel' with
      | zero => simp at h2
      | succ f2 =>
        have hlen : ((b :: bs).drop w).length ≤ f := by
          simp only [List.length_drop, List.length_cons]
          simp only [List.length_cons] at h1
          omega
        have hlen2 : ((b :: bs).drop w).length ≤ f2 := by
          simp only [List.length_drop, List.length_cons]
          simp only [List.length_cons] at h2
          omega
        simp only [chunksOfGo]
        rw [ih f2 _ hlen hlen2]

/-- Unfolding one chunk for a nonempty list. -/
theorem chunksOf_cons (w : Nat) (hw : 1 ≤ w) (l : List Nat) (hl : l ≠ []) :
    chunksOf w l = l.take w :: chunksOf w (l.drop w) := by
  cases l with
  | nil => exact absurd rfl hl
  | cons b bs =>
    show chunksOfGo w (bs.length + 1) (b :: bs) = _
    simp only [chunksOfGo, chunksOf]
    rw [chunksOfGo_irrel w hw bs.length ((b :: bs).drop w).length
      ((b :: bs).drop w)
      (by simp only [List.length_drop, List.length_cons]; omega)
      (le_refl _)]

/- ## Counterexamples on whole upload runs -/

set_option maxRecDepth 4000 in
/-- Counterexample to claim C7 as stated: in a single-chunk upload (5-byte
file, generous MTU, the device confirming the whole file in one chunk) the
run ends with the port still on the initial timeout — the loop breaks at
`off == data.len()` before ever reaching the `set_timeout` call — so the
transport read timeout has *not* been set to the subsequent value after the
first confirmed chunk when that chunk is also the last one. -/
theorem adaptive_timeout_counterexample :
    uploadRun (goodDevice (List.replicate 5 7)) ⟨128, 10000, 3⟩
      (List.replicate 5 7) (List.replicate 32 0) 0 (fun _ => 0) 10 =
      .ok ⟨5, 1, 1, .initialTimeout, [.initialTimeout]⟩ ∧
    TimeoutSetting.initialTimeout ≠ TimeoutSetting.subsequentTimeout := by
  exact ⟨by decide, by decide⟩

set_option maxRecDepth 4000 in
/-- Counterexample to claim C5 as stated: on the empty file, a device that
answers every chunk with `rc = 0` and `off' = off + |data|` capped at `|D|`
(here necessarily `off' = 0 = off`) does not give a successful upload of
`ceil(0 / chunk) = 0` transactions; the engine sends one empty chunk and
fails with *wrong offset received*. -/
theorem upload_empty_file_counterexample :
    uploadRun (goodDevice []) ⟨128, 512, 3⟩ [] (List.replicate 32 0) 0
      (fun _ => 0) 10 =
      .error (.wrongOffset, ⟨0, 1, 1, .initialTimeout, [.initialTimeout]⟩) := by
  decide


/- ## Frame round-trip helpers (towards C1) -/

/-- A whole-group prefix of the encoding decodes to the matching byte
prefix. -/
theorem b64decode_take (f : List Nat) (hfb : ∀ b ∈ f, b < 256) (m : Nat)
    (hm : 3 * m ≤ f.length) :
    b64decode ((b64encode f).take (4 * m)) = some (f.take (3 * m)) := by
  have htl : (f.take (3 * m)).length = 3 * m := by
    rw [List.length_take]; omega
  have henc : b64encode f =
      b64encode (f.take (3 * m)) ++ b64encode (f.drop (3 * m)) := by
    conv_lhs => rw [← List.take_append_drop (3 * m) f]
    exact b64encode_append _ (by rw [htl]; omega) _
  have hel : (b64encode (f.take (3 * m))).length = 4 * m := by
    rw [b64encode_length, htl]; omega
  rw [henc, List.take_left' hel]
  have hpre := b64decode_prefix (f.take (3 * m)) (by rw [htl]; omega)
    (fun b hb => hfb b (List.mem_of_mem_take hb)) []
  simpa [b64decode] using hpre

/-- `read_u16` only looks at the first two bytes. -/
theorem readU16_take (l : List Nat) (n : Nat) (hn : 2 ≤ n) :
    readU16 (l.take n) = readU16 l := by
  obtain ⟨k, rfl⟩ : ∃ k, n = k + 2 := ⟨n - 2, by omega⟩
  match l with
  | [] => simp [readU16]
  | [a] => simp [readU16, List.take]
  | a :: b :: tl => simp [readU16, List.take]

/-- Splitting the rendered continuation lines recovers one line per chunk,
each with its `04 14` marker and terminating line feed. -/
theorem splitLinesGo_cont (cs : List (List Nat))
    (hcs : ∀ c ∈ cs, ∀ b ∈ c, b ≠ 10) :
    ∀ fuel, (renderCont cs).length ≤ fuel →
      splitLinesGo fuel (renderCont cs) =
        cs.map (fun c => 4 :: 20 :: (c ++ [10])) := by
  induction cs with
  | nil => intro fuel _; cases fuel <;> rfl
  | cons c cs ih =>
    intro fuel hfuel
    have hlen : (renderCont (c :: cs)).length =
        c.length + 3 + (renderCont cs).length := by
      simp [renderCont]; omega
    cases fuel with
    | zero => omega
    | succ fu =>
      have hclean : ∀ b ∈ (4 :: 20 :: c : List Nat), b ≠ 10 := by
        intro b hb
        simp only [List.mem_cons] at hb
        rcases hb with h | h | h
        · omega
        · omega
        · exact hcs c (by simp) b h
      have hr : readUntilLF (4 :: 20 :: (c ++ 10 :: renderCont cs)) =
          some (4 :: 20 :: c, renderCont cs) := by
        have := readUntilLF_clean (4 :: 20 :: c) hclean (renderCont cs)
        simpa using this
      show splitLinesGo (fu + 1) (4 :: 20 :: (c ++ 10 :: renderCont cs)) = _
      simp only [splitLinesGo, hr]
      rw [ih (fun ch hch => hcs ch (by simp [hch])) fu (by omega)]
      simp

/-- Splitting the full rendering of a nonempty chunk list: one `06 09` start
line, then one `04 14` continuation line per remaining chunk. -/
theorem splitLinesGo_renderLines (c : List Nat) (cs : List (List Nat))
    (hc : ∀ b ∈ c, b ≠ 10) (hcs : ∀ ch ∈ cs, ∀ b ∈ ch, b ≠ 10) :
    ∀ fuel, (renderLines (c :: cs)).length ≤ fuel →
      splitLinesGo fuel (renderLines (c :: cs)) =
        (6 :: 9 :: (c ++ [10])) ::
          cs.map (fun ch => 4 :: 20 :: (ch ++ [10])) := by
  intro fuel hfuel
  have hlen : (renderLines (c :: cs)).length =
      c.length + 3 + (renderCont cs).length := by
    simp [renderLines]; omega
  cases fuel with
  | zero => omega
  | succ fu =>
    have hclean : ∀ b ∈ (6 :: 9 :: c : List Nat), b ≠ 10 := by
      intro b hb
      simp only [List.mem_cons] at hb
      rcases hb with h | h | h
      · omega
      · omega
      · exact hc b h
    have hr : readUntilLF (6 :: 9 :: (c ++ 10 :: renderCont cs)) =
        some (6 :: 9 :: c, renderCont cs) := by
      have := readUntilLF_clean (6 :: 9 :: c) hclean (renderCont cs)
      simpa using this
    show splitLinesGo (fu + 1) (6 :: 9 :: (c ++ 10 :: renderCont cs)) = _
    simp only [splitLinesGo, hr]
    rw [splitLinesGo_cont cs hcs fu (by omega)]
    simp

/-- The line decomposition of a rendered frame. -/
theorem splitLinesLF_renderLines (c : List Nat) (cs : List (List Nat))
    (hc : ∀ b ∈ c, b ≠ 10) (hcs : ∀ ch ∈ cs, ∀ b ∈ ch, b ≠ 10) :
    splitLinesLF (renderLines (c :: cs)) =
      (6 :: 9 :: (c ++ [10])) ::
        cs.map (fun ch => 4 :: 20 :: (ch ++ [10])) :=
  splitLinesGo_renderLines c cs hc hcs _ (le_refl _)

/-- One continuation iteration of the receive loop: marker `04 14` accepted,
one clean line read, accumulated text decoded, stop test against the already
recorded nonzero expected length. -/
theorem rxLoop_step (fu bytesRead expectedLen : Nat)
    (acc content s3 decoded : List Nat) (hbr : bytesRead ≠ 0)
    (hel : expectedLen ≠ 0) (hcl : ∀ b ∈ content, b ≠ 10)
    (hdec : b64decode (acc ++ content) = some decoded) :
    rxLoop (fu + 1) (4 :: 20 :: (content ++ 10 :: s3)) bytesRead expectedLen
        acc =
      (if decoded.length < 2 then .error .panic
       else if expectedLen ≤ decoded.length - 2 then .ok (acc ++ content, s3)
       else rxLoop fu s3 (bytesRead + content.length) expectedLen
              (acc ++ content)) := by
  have hbr0 : (bytesRead = 0) = False := by simp [hbr]
  have hel0 : (expectedLen = 0) = False := by simp [hel]
  simp only [rxLoop, hbr0, hel0, if_false]
  rw [readUntilLF_clean content hcl s3]
  simp [hdec]

/-- The first iteration of the receive loop: marker `06 09` accepted, one
clean line read and decoded, the expected length recorded from the leading
big-endian u16 when nonzero. -/
theorem rxLoop_start (fu : Nat) (content s3 decoded : List Nat) (m : Nat)
    (hcl : ∀ b ∈ content, b ≠ 10)
    (hdec : b64decode content = some decoded)
    (hm : readU16 decoded = m) (hmpos : 0 < m) :
    rxLoop (fu + 1) (6 :: 9 :: (content ++ 10 :: s3)) 0 0 [] =
      (if decoded.length < 2 then .error .panic
       else if m ≤ decoded.length - 2 then .ok (content, s3)
       else rxLoop fu s3 content.length m content) := by
  simp only [rxLoop, if_pos rfl]
  rw [readUntilLF_clean content hcl s3]
  simp [hdec, hm, hmpos]

/-- The receive loop, entered after the first line with `|f| - 2` recorded
as the expected length and an accumulated base64 prefix `acc`, consumes the
remaining rendered continuation lines and returns the full base64 text with
the trailing stream untouched. -/
theorem rxLoop_cont (f : List Nat) (hfb : ∀ b ∈ f, b < 256)
    (hflen : 5 ≤ f.length) (w : Nat) (hw : 12 ≤ w) (hw4 : w % 4 = 0)
    (tail : List Nat) :
    ∀ fuel acc rem bytesRead,
      b64encode f = acc ++ rem → rem ≠ [] → acc.length % 4 = 0 →
      bytesRead ≠ 0 → rem.length ≤ fuel →
      rxLoop fuel (renderCont (chunksOf w rem) ++ tail) bytesRead
          (f.length - 2) acc = .ok (b64encode f, tail) := by
  intro fuel
  induction fuel with
  | zero =>
    intro acc rem bytesRead hsplit hrem hacc hbr hfuel
    exact absurd (List.length_eq_zero.mp (by omega)) hrem
  | succ fu ih =>
    intro acc rem bytesRead hsplit hrem hacc hbr hfuel
    have hb64len := b64encode_length f
    have hlens : (b64encode f).length = acc.length + rem.length := by
      rw [hsplit, List.length_append]
    have hne10 : ∀ b ∈ rem, b ≠ 10 := by
      intro b hb
      exact b64encode_ne_10 f b (by rw [hsplit]; exact List.mem_append_right acc hb)
    have hclean : ∀ b ∈ rem.take w, b ≠ 10 :=
      fun b hb => hne10 b (List.mem_of_mem_take hb)
    have hel : f.length - 2 ≠ 0 := by omega
    rw [chunksOf_cons w (by omega) rem hrem]
    have hstream : renderCont (rem.take w :: chunksOf w (rem.drop w)) ++ tail =
        4 :: 20 :: (rem.take w ++ 10 ::
          (renderCont (chunksOf w (rem.drop w)) ++ tail)) := by
      simp [renderCont]
    by_cases hcase : rem.length ≤ w
    · -- the last line: everything decoded, stop condition met
      have htake : rem.take w = rem := List.take_of_length_le hcase
      have hdropnil : rem.drop w = [] := List.drop_eq_nil_of_le hcase
      have hdec : b64decode (acc ++ rem.take w) = some f := by
        rw [htake, ← hsplit]; exact b64_roundtrip f hfb
      rw [hstream, rxLoop_step fu bytesRead (f.length - 2) acc (rem.take w)
        (renderCont (chunksOf w (rem.drop w)) ++ tail) f hbr hel hclean hdec]
      have h2 : ¬(f.length < 2) := by omega
      rw [if_neg h2, if_pos (by omega)]
      rw [htake, ← hsplit, hdropnil]
      have : chunksOf w ([] : List Nat) = [] := rfl
      rw [this]
      rfl
    · -- an intermediate line: a strict whole-group prefix is decoded
      push_neg at hcase
      have htw : (rem.take w).length = w := by
        rw [List.length_take]; omega
      have hq : acc.length + w = 4 * ((acc.length + w) / 4) := by omega
      have h3q : 3 * ((acc.length + w) / 4) ≤ f.length - 1 := by omega
      have hacc' : acc ++ rem.take w = (b64encode f).take (acc.length + w) := by
        rw [List.take_add, hsplit, List.take_left, List.drop_left]
      have hdec : b64decode (acc ++ rem.take w) =
          some (f.take (3 * ((acc.length + w) / 4))) := by
        rw [hacc']
        conv_lhs => rw [hq]
        exact b64decode_take f hfb _ (by omega)
      rw [hstream, rxLoop_step fu bytesRead (f.length - 2) acc (rem.take w)
        (renderCont (chunksOf w (rem.drop w)) ++ tail)
        (f.take (3 * ((acc.length + w) / 4))) hbr hel hclean hdec]
      have hdlen : (f.take (3 * ((acc.length + w) / 4))).length =
          3 * ((acc.length + w) / 4) := by
        rw [List.length_take]; omega
      rw [if_neg (by omega), if_neg (by omega)]
      have hdl : (rem.drop w).length = rem.length - w := by
        simp [List.length_drop]
      rw [htw]
      exact ih (acc ++ rem.take w) (rem.drop w) (bytesRead + w)
        (by rw [hsplit, List.append_assoc, List.take_append_drop])
        (by intro h; rw [h] at hdl; simp at hdl; omega)
        (by rw [List.length_append, htw]; omega)
        (by omega)
        (by omega)

/-- Feeding a rendered frame (for a payload-with-framing byte list `f` whose
leading u16 is `|f| - 2`) to the receive loop yields the full base64 text of
`f`, leaving any trailing stream bytes unread. -/
theorem rxLoop_wrapFrame (f : List Nat) (hfb : ∀ b ∈ f, b < 256)
    (hflen : 5 ≤ f.length) (hread : readU16 f = f.length - 2)
    (w : Nat) (hw : 12 ≤ w) (hw4 : w % 4 = 0) (tail : List Nat) :
    ∀ fuel, (b64encode f).length ≤ fuel →
      rxLoop fuel (renderLines (chunksOf w (b64encode f)) ++ tail) 0 0 [] =
        .ok (b64encode f, tail) := by
  intro fuel hfuel
  have hb64len := b64encode_length f
  have hb64ne : b64encode f ≠ [] := List.ne_nil_of_length_pos (by omega)
  cases fuel with
  | zero => omega
  | succ fu =>
    rw [chunksOf_cons w (by omega) _ hb64ne]
    have hstream : renderLines ((b64encode f).take w ::
        chunksOf w ((b64encode f).drop w)) ++ tail =
        6 :: 9 :: ((b64encode f).take w ++ 10 ::
          (renderCont (chunksOf w ((b64encode f).drop w)) ++ tail)) := by
      simp [renderLines]
    have hclean : ∀ b ∈ (b64encode f).take w, b ≠ 10 :=
      fun b hb => b64encode_ne_10 f b (List.mem_of_mem_take hb)
    by_cases hcase : (b64encode f).length ≤ w
    · -- the whole frame fits on the single start line
      have htake : (b64encode f).take w = b64encode f :=
        List.take_of_length_le hcase
      have hdropnil : (b64encode f).drop w = [] := List.drop_eq_nil_of_le hcase
      have hdec : b64decode ((b64encode f).take w) = some f := by
        rw [htake]; exact b64_roundtrip f hfb
      rw [hstream, rxLoop_start fu _ _ f (f.length - 2) hclean hdec hread
        (by omega)]
      rw [if_neg (by omega), if_pos (by omega)]
      rw [htake, hdropnil]
      have : chunksOf w ([] : List Nat) = [] := rfl
      rw [this]
      rfl
    · -- the start line holds a strict whole-group prefix
      push_neg at hcase
      have htw : ((b64encode f).take w).length = w := by
        rw [List.length_take]; omega
      have hq : w = 4 * (w / 4) := by omega
      have h3q : 3 * (w / 4) ≤ f.length - 1 := by omega
      have hdec : b64decode ((b64encode f).take w) =
          some (f.take (3 * (w / 4))) := by
        conv_lhs => rw [hq]
        exact b64decode_take f hfb _ (by omega)
      have hru : readU16 (f.take (3 * (w / 4))) = f.length - 2 := by
        rw [readU16_take f (3 * (w / 4)) (by omega), hread]
      rw [hstream, rxLoop_start fu _ _ (f.take (3 * (w / 4)))
        (f.length - 2) hclean hdec hru (by omega)]
      have hdlen : (f.take (3 * (w / 4))).length = 3 * (w / 4) := by
        rw [List.length_take]; omega
      rw [if_neg (by omega), if_neg (by omega), htw]
      exact rxLoop_cont f hfb hflen w hw hw4 tail fu
        ((b64encode f).take w) ((b64encode f).drop w) w
        (List.take_append_drop w (b64encode f)).symm
        (by
          intro h
          have := congrArg List.length h
          simp only [List.length_drop, List.length_nil] at this
          omega)
        (by rw [htw]; omega)
        (by omega)
        (by simp only [List.length_drop]; omega)

/-- Unwrapping a wrapped frame returns the payload: the length prefix, CRC
and base64 line framing all round-trip through `transceive`'s receive path. -/
theorem transceiveUnwrap_wrapFrame (P : List Nat) (hP1 : 1 ≤ P.length)
    (hP2 : P.length ≤ 65533) (hPb : ∀ b ∈ P, b < 256) (L : Nat)
    (hL : 16 ≤ L) (hL4 : (L - 4) % 4 = 0) :
    transceiveUnwrap (wrapFrame L P) = .ok P := by
  set F : List Nat := be16 (P.length + 2) ++ (P ++ be16 (crc16 P)) with hFdef
  have hlenPC : (P ++ be16 (crc16 P)).length = P.length + 2 := by simp [be16]
  have hf : wrapFrame L P =
      renderLines (chunksOf (L - 4) (b64encode F)) := by
    simp only [wrapFrame]
    rw [hlenPC]
  have hfb : ∀ b ∈ F, b < 256 := by
    intro b hb
    rw [hFdef] at hb
    simp only [List.mem_append] at hb
    rcases hb with h | h | h
    · exact be16_lt _ b h
    · exact hPb b h
    · exact be16_lt _ b h
  have hflenF : F.length = P.length + 4 := by rw [hFdef]; simp [be16]
  have hreadF : readU16 F = F.length - 2 := by
    rw [hFdef, readU16_be16]
    simp [be16]
    omega
  have hrx : rxLoop (wrapFrame L P).length (wrapFrame L P) 0 0 [] =
      .ok (b64encode F, []) := by
    have hstrm : wrapFrame L P =
        renderLines (chunksOf (L - 4) (b64encode F)) ++ [] := by
      rw [hf, List.append_nil]
    rw [hstrm]
    exact rxLoop_wrapFrame F hfb (by omega) hreadF (L - 4) (by omega) hL4 []
      ((renderLines (chunksOf (L - 4) (b64encode F)) ++ []).length)
      (by
        rw [List.append_nil, renderLines_length, ← List.length_flatten,
          chunksOf, chunksOfGo_flatten]
        omega)
  simp only [transceiveUnwrap, hrx, b64_roundtrip F hfb]
  rw [if_neg (by omega), if_neg (by simp [hreadF]), if_neg (by omega)]
  have hdata : (F.drop 2).take (F.length - 4) = P := by
    have h2 : (be16 (P.length + 2)).length = 2 := by simp [be16]
    have hd2 : F.drop 2 = P ++ be16 (crc16 P) := by
      rw [hFdef]
      exact List.drop_left' h2
    have ht : (P ++ be16 (crc16 P)).take P.length = P := List.take_left' rfl
    rw [show F.length - 4 = P.length by omega, hd2, ht]
  have hck : F.drop (F.length - 2) = be16 (crc16 P) := by
    have hassoc : F = (be16 (P.length + 2) ++ P) ++ be16 (crc16 P) := by
      rw [hFdef, List.append_assoc]
    rw [show F.length - 2 = P.length + 2 by omega, hassoc]
    exact List.drop_left' (by simp [be16])
  have hcrc : readU16 (F.drop (F.length - 2)) = crc16 P := by
    rw [hck, show be16 (crc16 P) = be16 (crc16 P) ++ [] by simp, readU16_be16]
    exact Nat.mod_eq_of_lt (crc16_lt P)
  rw [hdata, if_neg (by simp [hcrc])]

/-- Claim C1 (amended): frame-codec round trip.  The spec's claim fails as
stated on two boundaries, so two hypotheses are tightened.  First, the
receive loop of `transceive` base64-decodes its whole accumulation after
every line, so a run over more than one line only decodes when every full
line carries a multiple of four base64 characters: the claim needs
`(linelength - 4) % 4 = 0` in addition to `linelength ≥ 16`.  Second, the
u16 length prefix stores `|P| + 2`, so `|P|` is capped at 65533, not 65534.
Under these corrections: unwrapping the wrapped frame returns exactly `P`;
every emitted line is at most `linelength` bytes long; exactly one line
begins with the bytes `06 09`; and every other line begins with `04 14`. -/
theorem frame_codec_roundtrip (P : List Nat) (hP1 : 1 ≤ P.length)
    (hP2 : P.length ≤ 65533) (hPb : ∀ b ∈ P, b < 256) (L : Nat)
    (hL : 16 ≤ L) (hL4 : (L - 4) % 4 = 0) :
    transceiveUnwrap (wrapFrame L P) = .ok P ∧
    (∀ line ∈ splitLinesLF (wrapFrame L P), line.length ≤ L) ∧
    (splitLinesLF (wrapFrame L P)).countP
      (fun line => decide (line.take 2 = [6, 9])) = 1 ∧
    (∀ line ∈ splitLinesLF (wrapFrame L P),
      line.take 2 ≠ [6, 9] → line.take 2 = [4, 20]) := by
  set F : List Nat := be16 (P.length + 2) ++ (P ++ be16 (crc16 P)) with hFdef
  have hlenPC : (P ++ be16 (crc16 P)).length = P.length + 2 := by simp [be16]
  have hf : wrapFrame L P =
      renderLines (chunksOf (L - 4) (b64encode F)) := by
    simp only [wrapFrame]
    rw [hlenPC]
  have hflenF : F.length = P.length + 4 := by rw [hFdef]; simp [be16]
  have hb64len := b64encode_length F
  have hb64ne : b64encode F ≠ [] := List.ne_nil_of_length_pos (by omega)
  have hcleanTake : ∀ b ∈ (b64encode F).take (L - 4), b ≠ 10 :=
    fun b hb => b64encode_ne_10 F b (List.mem_of_mem_take hb)
  have hcleanChunks : ∀ ch ∈ chunksOf (L - 4) ((b64encode F).drop (L - 4)),
      ∀ b ∈ ch, b ≠ 10 := by
    intro ch hch b hb
    apply b64encode_ne_10 F b
    have hfl : b ∈ (chunksOf (L - 4) ((b64encode F).drop (L - 4))).flatten :=
      List.mem_flatten.mpr ⟨ch, hch, hb⟩
    rw [chunksOf, chunksOfGo_flatten] at hfl
    exact List.mem_of_mem_drop hfl
  have hlines : splitLinesLF (wrapFrame L P) =
      (6 :: 9 :: ((b64encode F).take (L - 4) ++ [10])) ::
        (chunksOf (L - 4) ((b64encode F).drop (L - 4))).map
          (fun ch => 4 :: 20 :: (ch ++ [10])) := by
    rw [hf, chunksOf_cons (L - 4) (by omega) _ hb64ne]
    exact splitLinesLF_renderLines _ _ hcleanTake hcleanChunks
  refine ⟨transceiveUnwrap_wrapFrame P hP1 hP2 hPb L hL hL4, ?_, ?_, ?_⟩
  · -- every line fits in `linelength` bytes
    intro line hline
    rw [hlines] at hline
    rcases List.mem_cons.mp hline with h | h
    · subst h
      simp [List.length_take]
      omega
    · obtain ⟨ch, hch, rfl⟩ := List.mem_map.mp h
      have hm := chunksOfGo_mem (L - 4) (by omega)
        ((b64encode F).drop (L - 4)).length ((b64encode F).drop (L - 4))
        (le_refl _) ch hch
      simp
      omega
  · -- exactly one start-marker line
    have hzero : ((chunksOf (L - 4) ((b64encode F).drop (L - 4))).map
        (fun ch => 4 :: 20 :: (ch ++ [10]))).countP
          (fun line => decide (line.take 2 = [6, 9])) = 0 := by
      rw [List.countP_eq_zero]
      intro a ha
      obtain ⟨ch, hch, rfl⟩ := List.mem_map.mp ha
      simp [List.take]
    rw [hlines, List.countP_cons, hzero]
    simp [List.take]
  · -- all other lines carry the continuation marker
    intro line hline hne
    rw [hlines] at hline
    rcases List.mem_cons.mp hline with h | h
    · exact absurd (by rw [h]; rfl) hne
    · obtain ⟨ch, hch, rfl⟩ := List.mem_map.mp h
      rfl

/-- Witness for C1 at the payload `[1, 2, 3]` and `linelength = 16`. -/
theorem frame_codec_roundtrip_witness :
    transceiveUnwrap (wrapFrame 16 [1, 2, 3]) = .ok [1, 2, 3] ∧
    (∀ line ∈ splitLinesLF (wrapFrame 16 [1, 2, 3]), line.length ≤ 16) ∧
    (splitLinesLF (wrapFrame 16 [1, 2, 3])).countP
      (fun line => decide (line.take 2 = [6, 9])) = 1 ∧
    (∀ line ∈ splitLinesLF (wrapFrame 16 [1, 2, 3]),
      line.take 2 ≠ [6, 9] → line.take 2 = [4, 20]) :=
  frame_codec_roundtrip [1, 2, 3] (by decide) (by decide) (by decide) 16
    (by decide) (by decide)

/-- Counterexample to C1 as stated: with `linelength = 17` (allowed by the
claim, as only `≥ 16` is required) a ten-byte payload wraps to lines of 13
base64 characters, and the receive loop's intermediate decode of the first
accumulated line fails — the round trip returns a base64 error instead of
the payload. -/
theorem frame_codec_roundtrip_counterexample :
    transceiveUnwrap (wrapFrame 17 (List.replicate 10 0)) = .error .base64 ∧
    transceiveUnwrap (wrapFrame 17 (List.replicate 10 0)) ≠
      .ok (List.replicate 10 0) := by
  decide

end Mcumgr
